import Mathlib

/-!
Verification of the tweet-thread reconstruction engine of the
Twitter API Viewer repository.

The engine lives in the twitter service module (processRawTweet,
createCleanRepliedToTweet, the post-fetch processing section of
fetchUserTweets, organizeTweetsIntoThreads) and in the rendering
composition of App.tsx (grouping by conversationId and the three
createdAt sorts).  This file gives a shallow embedding of those
functions, translated statement by statement from the source, and
proves or refutes the frozen claims about them.

Modelling conventions:
* A JavaScript string-or-undefined field is `Option String` (`JStr`);
  `none` models undefined/null and `some ""` models the empty string,
  which is falsy in JavaScript exactly like undefined.
* `a || b` on such values is `jsOrS`; `x ? a : b` style truthiness is
  `truthyS`.  Object-valued fields use `Option` with `jsOrO`.
* `new Date(s).getTime()` is modelled by `dateTime`, which reads the
  string as a decimal number (the inputs of interest are numeric
  timestamps); unparsable strings map to 0.  This abstracts only the
  date grammar, not the comparator logic.
* JavaScript `Map` objects are association lists with last-set-wins
  replacement (`msetT` / `msetR`); `Set` objects are `List` membership.
* `Array.prototype.sort` (stable per the ECMAScript specification) is
  the stable insertion sort `stableSortBy`.
* Raw tweets carry exactly the fields the engine reads; fields the
  engine copies through untouched (author, counts, media, card, url,
  displayTextRange) are omitted as they influence no claim.
-/

namespace TwitterThreads

/-- JavaScript string-or-undefined: `none` is undefined/null. -/
abbrev JStr := Option String

/-- JavaScript truthiness of a string-or-undefined value:
undefined, null and the empty string are falsy. -/
def truthyS : JStr → Bool
  | none => false
  | some s => s ≠ ""

/-- JavaScript `a || b` on string-or-undefined values. -/
def jsOrS (a b : JStr) : JStr := if truthyS a then a else b

/-- JavaScript `a || undefined`: collapses any falsy value to undefined. -/
def orUndef (a : JStr) : JStr := if truthyS a then a else none

/-- JavaScript `a || b` on object-valued fields: any present object is
truthy (this includes the empty array). -/
def jsOrO (a b : Option α) : Option α := if a.isSome then a else b

/-- The numeric value of a decimal digit character. -/
def digitVal (c : Char) : Option Nat :=
  let n := c.toNat
  if 48 ≤ n && n ≤ 57 then some (n - 48) else none

/-- Accumulating decimal parser over a character list. -/
def parseNatAux : List Char → Nat → Option Nat
  | [], acc => some acc
  | c :: cs, acc =>
      match digitVal c with
      | some d => parseNatAux cs (acc * 10 + d)
      | none => none

/-- Parse a non-empty all-digit string as a decimal number. -/
def parseNat (s : String) : Option Nat :=
  match s.data with
  | [] => none
  | l => parseNatAux l 0

/-- Model of `new Date(s).getTime()` for the timestamps the engine
compares: the string is read as a decimal number, anything else
(including undefined) maps to 0. -/
def dateTime (s : JStr) : Nat :=
  match s with
  | none => 0
  | some str => (parseNat str).getD 0

/-- Provenance tag recorded in the internal `_source` field. -/
inductive Prov where
  | main
  | includes
  | replied_to
deriving DecidableEq

mutual

/-- A raw record as returned by the API, restricted to the fields the
engine reads.  All fields are optional, mirroring untyped JSON. -/
inductive RawTweet where
  | mk
      (id text full_text createdAt created_at : JStr)
      (in_reply_to_status_id in_reply_to_tweet_id
       inReplyToStatusId inReplyToTweetId
       reply_to_status_id reply_to_tweet_id inReplyToId : JStr)
      (isReply : Option Bool)
      (conversationId : JStr)
      (referenced_tweets referencedTweets : Option (List RawRef))
      (replied_to repliedTo : Option RawTweet) : RawTweet

/-- An entry of a raw `referenced_tweets` list. -/
inductive RawRef where
  | mk (type reference_type id : JStr) (tweet : Option RawTweet) : RawRef

end

namespace RawTweet

def id : RawTweet → JStr
  | .mk i _ _ _ _ _ _ _ _ _ _ _ _ _ _ _ _ _ => i

def text : RawTweet → JStr
  | .mk _ t _ _ _ _ _ _ _ _ _ _ _ _ _ _ _ _ => t

def full_text : RawTweet → JStr
  | .mk _ _ f _ _ _ _ _ _ _ _ _ _ _ _ _ _ _ => f

def createdAt : RawTweet → JStr
  | .mk _ _ _ c _ _ _ _ _ _ _ _ _ _ _ _ _ _ => c

def created_at : RawTweet → JStr
  | .mk _ _ _ _ c _ _ _ _ _ _ _ _ _ _ _ _ _ => c

def in_reply_to_status_id : RawTweet → JStr
  | .mk _ _ _ _ _ a _ _ _ _ _ _ _ _ _ _ _ _ => a

def in_reply_to_tweet_id : RawTweet → JStr
  | .mk _ _ _ _ _ _ a _ _ _ _ _ _ _ _ _ _ _ => a

def inReplyToStatusId : RawTweet → JStr
  | .mk _ _ _ _ _ _ _ a _ _ _ _ _ _ _ _ _ _ => a

def inReplyToTweetId : RawTweet → JStr
  | .mk _ _ _ _ _ _ _ _ a _ _ _ _ _ _ _ _ _ => a

def reply_to_status_id : RawTweet → JStr
  | .mk _ _ _ _ _ _ _ _ _ a _ _ _ _ _ _ _ _ => a

def reply_to_tweet_id : RawTweet → JStr
  | .mk _ _ _ _ _ _ _ _ _ _ a _ _ _ _ _ _ _ => a

def inReplyToId : RawTweet → JStr
  | .mk _ _ _ _ _ _ _ _ _ _ _ a _ _ _ _ _ _ => a

def isReply : RawTweet → Option Bool
  | .mk _ _ _ _ _ _ _ _ _ _ _ _ r _ _ _ _ _ => r

def conversationId : RawTweet → JStr
  | .mk _ _ _ _ _ _ _ _ _ _ _ _ _ c _ _ _ _ => c

def referenced_tweets : RawTweet → Option (List RawRef)
  | .mk _ _ _ _ _ _ _ _ _ _ _ _ _ _ r _ _ _ => r

def referencedTweets : RawTweet → Option (List RawRef)
  | .mk _ _ _ _ _ _ _ _ _ _ _ _ _ _ _ r _ _ => r

def replied_to : RawTweet → Option RawTweet
  | .mk _ _ _ _ _ _ _ _ _ _ _ _ _ _ _ _ r _ => r

def repliedTo : RawTweet → Option RawTweet
  | .mk _ _ _ _ _ _ _ _ _ _ _ _ _ _ _ _ _ r => r

end RawTweet

namespace RawRef

def type : RawRef → JStr
  | .mk t _ _ _ => t

def reference_type : RawRef → JStr
  | .mk _ t _ _ => t

def id : RawRef → JStr
  | .mk _ _ i _ => i

def tweet : RawRef → Option RawTweet
  | .mk _ _ _ t => t

end RawRef

/-- A processed tweet (the canonical record), restricted to the fields
the engine writes or reads downstream. -/
inductive Tweet where
  | mk
      (id text createdAt : JStr)
      (isReply : Option Bool)
      (inReplyToId inReplyToStatusId inReplyToTweetId : JStr)
      (conversationId : JStr)
      (referencedTweets : Option (List RawRef))
      (repliedTo : Option Tweet)
      (children : Option (List Tweet))
      (source : Option Prov) : Tweet

namespace Tweet

def id : Tweet → JStr
  | .mk i _ _ _ _ _ _ _ _ _ _ _ => i

def text : Tweet → JStr
  | .mk _ t _ _ _ _ _ _ _ _ _ _ => t

def createdAt : Tweet → JStr
  | .mk _ _ c _ _ _ _ _ _ _ _ _ => c

def isReply : Tweet → Option Bool
  | .mk _ _ _ r _ _ _ _ _ _ _ _ => r

def inReplyToId : Tweet → JStr
  | .mk _ _ _ _ a _ _ _ _ _ _ _ => a

def inReplyToStatusId : Tweet → JStr
  | .mk _ _ _ _ _ a _ _ _ _ _ _ => a

def inReplyToTweetId : Tweet → JStr
  | .mk _ _ _ _ _ _ a _ _ _ _ _ => a

def conversationId : Tweet → JStr
  | .mk _ _ _ _ _ _ _ c _ _ _ _ => c

def referencedTweets : Tweet → Option (List RawRef)
  | .mk _ _ _ _ _ _ _ _ r _ _ _ => r

def repliedTo : Tweet → Option Tweet
  | .mk _ _ _ _ _ _ _ _ _ r _ _ => r

def children : Tweet → Option (List Tweet)
  | .mk _ _ _ _ _ _ _ _ _ _ c _ => c

def source : Tweet → Option Prov
  | .mk _ _ _ _ _ _ _ _ _ _ _ s => s

/-- Replace only the `children` field (object spread with a fresh
`children` value, or the in-place assignment of `attachChildren`). -/
def setChildren : Tweet → Option (List Tweet) → Tweet
  | .mk i t c r a s w v f p _ src, ch => .mk i t c r a s w v f p ch src

/-- Assign the `conversationId` field (the backfill mutation). -/
def setConv : Tweet → JStr → Tweet
  | .mk i t c r a s w _ f p ch src, cv => .mk i t c r a s w cv f p ch src

/-- Assign the `_source` field. -/
def setSource : Tweet → Option Prov → Tweet
  | .mk i t c r a s w v f p ch _, src => .mk i t c r a s w v f p ch src

end Tweet

/-- The object produced by spreading undefined: every field undefined.
(`{ ...undefined, children: [] }` then sets `children` separately.) -/
def emptyTweet : Tweet :=
  .mk none none none none none none none none none none none none

/-- JavaScript thinks of the boolean field `isReply` as truthy exactly
when it is present and true. -/
def truthyB : Option Bool → Bool
  | none => false
  | some b => b

/-! ### JavaScript Map objects as association lists -/

/-- `Map.prototype.set`, modelled by a shadowing prepend: lookups find
the most recent binding first, giving last-set-wins semantics.  The
engine observes these id maps only through get and has (never through
iteration), so this is an exact model. -/
def msetR (m : List (String × RawTweet)) (k : String) (v : RawTweet) :
    List (String × RawTweet) :=
  (k, v) :: m

/-- `Map.prototype.get` keyed by a possibly-undefined id. -/
def mgetR (m : List (String × RawTweet)) (k : JStr) : Option RawTweet :=
  match k with
  | none => none
  | some s => (m.find? (fun p => p.1 == s)).map (fun p => p.2)

/-- `Map.prototype.has` keyed by a possibly-undefined id. -/
def mhasR (m : List (String × RawTweet)) (k : JStr) : Bool :=
  (mgetR m k).isSome

/-- Same Map model for processed tweets. -/
def msetT (m : List (String × Tweet)) (k : String) (v : Tweet) :
    List (String × Tweet) :=
  (k, v) :: m

def mgetT (m : List (String × Tweet)) (k : JStr) : Option Tweet :=
  match k with
  | none => none
  | some s => (m.find? (fun p => p.1 == s)).map (fun p => p.2)

/-- `{ ...tweetMap.get(id)!, children: [] }`: when the lookup misses,
spreading undefined yields an object with only the `children` field. -/
def getBangT (m : List (String × Tweet)) (k : JStr) : Tweet :=
  match mgetT m k with
  | some t => t
  | none => emptyTweet

/-! ### Normalizer (processRawTweet / createCleanRepliedToTweet) -/

/-- The reply-id candidate chain of `processRawTweet` (seven
candidates, ending with `inReplyToId`). -/
def rawReplyId7 (t : RawTweet) : JStr :=
  jsOrS t.in_reply_to_status_id (jsOrS t.in_reply_to_tweet_id
    (jsOrS t.inReplyToStatusId (jsOrS t.inReplyToTweetId
      (jsOrS t.reply_to_status_id (jsOrS t.reply_to_tweet_id t.inReplyToId)))))

/-- The reply-id candidate chain used inline by `fetchUserTweets` for
main tweets (six candidates, without `inReplyToId`). -/
def rawReplyId6 (t : RawTweet) : JStr :=
  jsOrS t.in_reply_to_status_id (jsOrS t.in_reply_to_tweet_id
    (jsOrS t.inReplyToStatusId (jsOrS t.inReplyToTweetId
      (jsOrS t.reply_to_status_id t.reply_to_tweet_id))))

/-- `processRawTweet`: normalizes one raw record, or drops it when it
has no truthy id. -/
def processRawTweet (t : RawTweet) : Option Tweet :=
  if !(truthyS t.id) then none
  else
    let replyId := rawReplyId7 t
    some (.mk
      t.id
      (jsOrS t.text (jsOrS t.full_text (some "")))
      (jsOrS t.createdAt (jsOrS t.created_at (some "")))
      (some (t.isReply.getD (truthyS replyId)))
      (orUndef (jsOrS t.inReplyToId replyId))
      (jsOrS t.in_reply_to_status_id t.inReplyToStatusId)
      (jsOrS t.in_reply_to_tweet_id t.inReplyToTweetId)
      (orUndef t.conversationId)
      (jsOrO t.referenced_tweets t.referencedTweets)
      none
      none
      none)

/-- `createCleanRepliedToTweet`: the depth-limited reply snapshot.  The
source explicitly omits `repliedTo`, `children` and every reply-linkage
field; callers only invoke it on a non-null record. -/
def createCleanRepliedToTweet (t : RawTweet) : Tweet :=
  .mk
    t.id
    (jsOrS t.text (jsOrS t.full_text (some "")))
    (jsOrS t.createdAt (jsOrS t.created_at (some "")))
    none none none none none none none none none

/-- Is this referenced-tweets entry a reply reference?
(`ref.type === 'replied_to' || ref.type === 'repliedTo' ||
 ref.reference_type === ...`). -/
def isRepliedToRef (r : RawRef) : Bool :=
  r.type == some "replied_to" || r.type == some "repliedTo" ||
  r.reference_type == some "replied_to" || r.reference_type == some "repliedTo"

/-! ### Provenance merger and reply resolver (fetchUserTweets) -/

/-- The global raw id lookup table: includes and replied-to tweets
first (later entries overwrite earlier ones), then main tweets only
when their id is not yet present. -/
def buildRawMap (rawTweets includesTweets repliedToTweets : List RawTweet) :
    List (String × RawTweet) :=
  let m := (includesTweets ++ repliedToTweets).foldl
    (fun m t => if truthyS t.id then msetR m (t.id.getD "") t else m) []
  rawTweets.foldl
    (fun m t =>
      if truthyS t.id && !(mhasR m t.id) then msetR m (t.id.getD "") t else m)
    m

/-- The reply-resolution chain of the main-tweet processing in
`fetchUserTweets`: direct replied_to field, then the referenced-tweets
list (inline record or lookup by reference id), then lookup by the
resolved reply id in the map and in the raw main array. -/
def resolveRepliedTo (tmap : List (String × RawTweet))
    (rawTweets : List RawTweet) (t : RawTweet) : Option Tweet :=
  let replyId := rawReplyId6 t
  let viaFields : Option Tweet :=
    if (t.replied_to.isSome || t.repliedTo.isSome) then
      match jsOrO t.replied_to t.repliedTo with
      | some raw => some (createCleanRepliedToTweet raw)
      | none => none
    else if (t.referenced_tweets.isSome || t.referencedTweets.isSome) then
      let refs := (jsOrO t.referenced_tweets t.referencedTweets).getD []
      match refs.find? isRepliedToRef with
      | some ref =>
          match ref.tweet with
          | some raw => some (createCleanRepliedToTweet raw)
          | none =>
              if truthyS ref.id && mhasR tmap ref.id then
                (mgetR tmap ref.id).map createCleanRepliedToTweet
              else none
      | none => none
    else none
  if truthyS replyId && viaFields.isNone then
    if mhasR tmap replyId then
      (mgetR tmap replyId).map createCleanRepliedToTweet
    else
      match rawTweets.find? (fun r => r.id == replyId) with
      | some raw => some (createCleanRepliedToTweet raw)
      | none => none
  else viaFields

/-- Main-tweet processing in `fetchUserTweets`: an object spread of the
raw record overridden with normalized reply fields, the resolved
`repliedTo` snapshot, and `_source: 'main'`. -/
def processMainTweet (tmap : List (String × RawTweet))
    (rawTweets : List RawTweet) (t : RawTweet) : Tweet :=
  let replyId := rawReplyId6 t
  .mk
    t.id
    t.text
    t.createdAt
    (some (t.isReply.getD (truthyS replyId)))
    (orUndef (jsOrS t.inReplyToId replyId))
    (jsOrS t.in_reply_to_status_id t.inReplyToStatusId)
    (jsOrS t.in_reply_to_tweet_id t.inReplyToTweetId)
    (orUndef t.conversationId)
    (jsOrO t.referenced_tweets t.referencedTweets)
    (resolveRepliedTo tmap rawTweets t)
    none
    (some .main)

/-- Does processed main tweet `m` reference the included raw tweet with
id `tid` (reply-id match in any of the three fields, or a
referenced-tweets citation)? -/
def matchesIncludes (m : Tweet) (tid : JStr) : Bool :=
  m.inReplyToId == tid || m.inReplyToStatusId == tid ||
  m.inReplyToTweetId == tid ||
  (m.referencedTweets.getD []).any (fun r => r.id == tid)

/-- Does processed main tweet `m` reply to the replied-to raw tweet
with id `tid` (reply-id match only)? -/
def matchesRepliedTo (m : Tweet) (tid : JStr) : Bool :=
  m.inReplyToId == tid || m.inReplyToStatusId == tid ||
  m.inReplyToTweetId == tid

/-- One step of the includes / replied_to pass: normalize the raw
tweet, tag its provenance, and run the conversation backfill.  When
the first referencing main tweet has no conversationId but a truthy
id, that id becomes the conversation id of both records — the main
list is mutated, so the updated list is threaded back. -/
def backfillStep (matchFn : Tweet → JStr → Bool) (src : Prov)
    (mains : List Tweet) (t : RawTweet) : Option Tweet × List Tweet :=
  match processRawTweet t with
  | none => (none, mains)
  | some p =>
      let p := p.setSource (some src)
      match mains.findIdx? (fun m => matchFn m t.id) with
      | none => (some p, mains)
      | some i =>
          let r := mains.getD i emptyTweet
          if truthyS r.conversationId then
            (some (p.setConv r.conversationId), mains)
          else if truthyS r.id then
            (some (p.setConv r.id), mains.set i (r.setConv r.id))
          else (some p, mains)

/-- Process one supplementary batch (already filtered): a fold that
threads the mutable main-tweet list through the backfill. -/
def processBatch (matchFn : Tweet → JStr → Bool) (src : Prov)
    (mains : List Tweet) (batch : List RawTweet) :
    List Tweet × List Tweet :=
  batch.foldl
    (fun acc t =>
      let (out, ms) := acc
      let (p, ms') := backfillStep matchFn src ms t
      match p with
      | some tw => (out ++ [tw], ms')
      | none => (out, ms'))
    ([], mains)

/-- The batch filter of `fetchUserTweets`: keep raw tweets with a
truthy id that does not already occur among the main tweet ids. -/
def filterBatch (mainIds : List JStr) (batch : List RawTweet) :
    List RawTweet :=
  batch.filter (fun t => truthyS t.id && !(mainIds.contains t.id))

/-- The post-parse processing of `fetchUserTweets`: build the raw
lookup map, process the main tweets, then the includes batch, then the
replied_to batch (each filtered against the main ids and backfilled,
mutating the main list), and concatenate. -/
def fetchPipeline (rawTweets includesTweets repliedToTweets : List RawTweet) :
    List Tweet :=
  let tmap := buildRawMap rawTweets includesTweets repliedToTweets
  let mains := rawTweets.map (processMainTweet tmap rawTweets)
  let mainIds := mains.map Tweet.id
  let inclP :=
    processBatch matchesIncludes .includes mains (filterBatch mainIds includesTweets)
  let replP :=
    processBatch matchesRepliedTo .replied_to inclP.2 (filterBatch mainIds repliedToTweets)
  replP.2 ++ inclP.1 ++ replP.1

/-! ### Batch shapes (error handling of invalid input) -/

/-- The shape of one raw batch location in the parsed response:
absent/falsy (undefined, null, 0, empty string), a JSON array, or a
truthy non-array value. -/
inductive BatchV where
  | missing
  | arr (ts : List RawTweet)
  | nonArray

/-- The `x || []` extraction applied to each batch location. -/
def BatchV.toList : BatchV → List RawTweet
  | .missing => []
  | .arr ts => ts
  | .nonArray => []

/-- Whether a batch value is a truthy non-array.  Such a value survives
the `|| []` default and the engine then iterates over it
(`forEach` / spread / `filter`), raising a TypeError that the catch
block rethrows. -/
def BatchV.bad : BatchV → Bool
  | .nonArray => true
  | _ => false

/-- The post-parse processing applied to the three extracted batch
locations, with the TypeError propagation made explicit. -/
def fetchTweetsFromResponse (b1 b2 b3 : BatchV) : Except Unit (List Tweet) :=
  if b1.bad || b2.bad || b3.bad then .error ()
  else .ok (fetchPipeline b1.toList b2.toList b3.toList)

/-! ### Conversation grouper and thread tree builder
(organizeTweetsIntoThreads) -/

/-- Append a tweet to its conversation group, creating the group at
the end on first use (JavaScript Map iteration order is key insertion
order). -/
def addToGroup (gs : List (String × List Tweet)) (k : String) (t : Tweet) :
    List (String × List Tweet) :=
  if gs.any (fun p => p.1 == k) then
    gs.map (fun p => if p.1 == k then (p.1, p.2 ++ [t]) else p)
  else gs ++ [(k, [t])]

/-- Partition into conversation groups (tweets with a truthy
`conversationId`, grouped by its value) and the orphan list, both in
input order. -/
def groupByConv (tweets : List Tweet) : List (String × List Tweet) × List Tweet :=
  tweets.foldl
    (fun acc t =>
      if truthyS t.conversationId then
        (addToGroup acc.1 (t.conversationId.getD "") t, acc.2)
      else (acc.1, acc.2 ++ [t]))
    ([], [])

/-- The id lookup map of `organizeTweetsIntoThreads`: every tweet with
a truthy id, stored as a copy with empty children (last set wins). -/
def buildTweetMap (tweets : List Tweet) : List (String × Tweet) :=
  tweets.foldl
    (fun m t =>
      if truthyS t.id then msetT m (t.id.getD "") (t.setChildren (some [])) else m)
    []

/-- Local root test inside one conversation: not a truthy reply, or no
truthy reply-target id, or the target id not among this group's ids. -/
def isRootIn (convIds : List JStr) (t : Tweet) : Bool :=
  if !(truthyB t.isReply) || !(truthyS t.inReplyToId) then true
  else !(convIds.contains t.inReplyToId)

/-- `attachChildren`, with the recursion depth made explicit by fuel
(the source recursion is bounded by the shared processed-id set; the
top-level entry point supplies fuel that is never exhausted).  The
processed set is threaded through sibling calls exactly as the shared
mutable `processedIds` set is. -/
def attachFuel (conv : List Tweet) (tmap : List (String × Tweet)) :
    Nat → List JStr → Tweet → Tweet × List JStr
  | 0, pr, node => (node, pr)
  | fuel + 1, pr, node =>
    if pr.contains node.id then (node, pr)
    else
      let pr1 := node.id :: pr
      let kids := conv.filter (fun t => t.inReplyToId == node.id && t.id != node.id)
      if kids.isEmpty then (node, pr1)
      else
        let folded := kids.foldl
          (fun acc child =>
            let copy := (getBangT tmap child.id).setChildren (some [])
            let step := attachFuel conv tmap fuel acc.2 copy
            (acc.1 ++ [step.1], step.2))
          (([] : List Tweet), pr1)
        (node.setChildren (some folded.1), folded.2)

/-- Process one conversation group: find its local roots, then build
each root tree with `attachChildren`, sharing one processed-id set
across the whole group. -/
def processConversation (tmap : List (String × Tweet)) (fuel : Nat)
    (conv : List Tweet) : List Tweet :=
  let convIds := conv.map Tweet.id
  let roots := conv.filter (isRootIn convIds)
  (roots.foldl
    (fun acc root =>
      let rootCopy := (getBangT tmap root.id).setChildren (some [])
      let step := attachFuel conv tmap fuel acc.2 rootCopy
      (acc.1 ++ [step.1], step.2))
    (([] : List Tweet), ([] : List JStr))).1

/-- The orphan branch of `organizeTweetsIntoThreads`: a non-reply (or
reply without target id) is pushed as a standalone root; a reply whose
parent is found and sits in a conversation is only logged — it
produces no output node; otherwise the reply is pushed standalone. -/
def processOrphan (tweets : List Tweet) (tmap : List (String × Tweet))
    (t : Tweet) : List Tweet :=
  if !(truthyB t.isReply) || !(truthyS t.inReplyToId) then
    [(getBangT tmap t.id).setChildren (some [])]
  else
    match tweets.find? (fun u => u.id == t.inReplyToId) with
    | some parent =>
        if truthyS parent.conversationId then []
        else [(getBangT tmap t.id).setChildren (some [])]
    | none => [(getBangT tmap t.id).setChildren (some [])]

/-- `organizeTweetsIntoThreads` at a given recursion budget. -/
def organizeFuel (fuel : Nat) (tweets : List Tweet) : List Tweet :=
  let tmap := buildTweetMap tweets
  let parts := groupByConv tweets
  let convRoots := parts.1.foldl
    (fun acc g => acc ++ processConversation tmap fuel g.2) []
  parts.2.foldl (fun acc t => acc ++ processOrphan tweets tmap t) convRoots

/-- `organizeTweetsIntoThreads`: the fuel `tweets.length + 2` always
suffices (every expansion consumes a fresh id from the input, see the
stabilization theorem). -/
def organizeTweetsIntoThreads (tweets : List Tweet) : List Tweet :=
  organizeFuel (tweets.length + 2) tweets

/-! ### Ordering and composition (renderResults in App.tsx) -/

/-- Insert behind every element with a key less than or equal — the
insertion step of a stable ascending sort. -/
def insSorted (k : α → Nat) (x : α) : List α → List α
  | [] => [x]
  | y :: ys => if k y ≤ k x then y :: insSorted k x ys else x :: y :: ys

/-- Stable ascending insertion sort, the model of the (stable)
`Array.prototype.sort` with a `getTime()` difference comparator. -/
def stableSortBy (k : α → Nat) (l : List α) : List α :=
  l.foldl (fun acc x => insSorted k x acc) []

/-- The sort key of a tweet. -/
def timeOf (t : Tweet) : Nat := dateTime t.createdAt

/-- The `reduce` that finds the oldest tweet of a conversation keeps
the first tweet with minimal `getTime()`; only its time is compared,
so the key of a group is the minimum time of its members. -/
def oldestTime (g : List Tweet) : Nat :=
  match g with
  | [] => 0
  | t :: ts => ts.foldl (fun old u => if timeOf u < old then timeOf u else old) (timeOf t)

/-- Conversation groups sorted by the earliest member time. -/
def sortedConversations (merged : List Tweet) : List (String × List Tweet) :=
  stableSortBy (fun p => oldestTime p.2) (groupByConv merged).1

/-- One conversation group rendered: members sorted by time, organized
into threads, root trees sorted by their own time. -/
def conversationForest (g : List Tweet) : List Tweet :=
  stableSortBy timeOf (organizeTweetsIntoThreads (stableSortBy timeOf g))

/-- The standalone tweets rendered after all conversation groups:
sorted, organized, and the resulting roots sorted again. -/
def standaloneForest (merged : List Tweet) : List Tweet :=
  stableSortBy timeOf
    (organizeTweetsIntoThreads (stableSortBy timeOf (groupByConv merged).2))

/-- The composed render order of `renderResults`: the sorted
conversation groups (each with its thread forest), followed by the
standalone forest. -/
def composePipeline (merged : List Tweet) :
    List (String × List Tweet) × List Tweet :=
  ((sortedConversations merged).map (fun p => (p.1, conversationForest p.2)),
   standaloneForest merged)

/-! ### Forest traversal helpers -/

mutual

/-- Every node of a tree (the tree itself and all descendants). -/
def nodesT : Tweet → List Tweet
  | .mk i tx c r a s w v f p ch src =>
      .mk i tx c r a s w v f p ch src :: nodesCh ch

def nodesCh : Option (List Tweet) → List Tweet
  | none => []
  | some l => nodesList l

def nodesList : List Tweet → List Tweet
  | [] => []
  | t :: ts => nodesT t ++ nodesList ts

end

/-- The strict descendants of a tree node: every node of its children
subtrees. -/
def strictDesc : Tweet → List Tweet
  | .mk _ _ _ _ _ _ _ _ _ _ ch _ => nodesCh ch

/-- All nodes of a forest. -/
def forestNodes (forest : List Tweet) : List Tweet :=
  nodesList forest

/-! ### Concrete record builders for the scenario claims -/

/-- A raw record with the handful of fields the scenarios use; all
other fields absent. -/
def mkRaw (id text createdAt in_reply_to_status_id inReplyToId : JStr)
    (isReply : Option Bool) (conversationId : JStr)
    (referenced_tweets : Option (List RawRef)) : RawTweet :=
  .mk id text none createdAt none
    in_reply_to_status_id none none none none none inReplyToId
    isReply conversationId referenced_tweets none none none

/-- A processed tweet with the handful of fields the scenarios use. -/
def mkT (id createdAt : JStr) (isReply : Option Bool)
    (inReplyToId conversationId : JStr) : Tweet :=
  .mk id none createdAt isReply inReplyToId none none conversationId
    none none none none

/-! ### Concrete scenario records -/

/-- A raw record with id x, present in both supplementary batches. -/
def c1raw : RawTweet := mkRaw (some "x") none (some "10") none none none none none

/-- Post A of the backfill scenario: id 1, no conversationId. -/
def rawA : RawTweet := mkRaw (some "1") (some "root A") (some "100") none none none none none

/-- Post B of the backfill scenario: id 2, replies to 1 through
in_reply_to_status_id, no conversationId. -/
def rawB : RawTweet := mkRaw (some "2") (some "reply B") (some "200") (some "1") none none none none

/-- The merged output of the backfill scenario with B in the primary
batch and A in the included batch. -/
def c2merged : List Tweet := fetchPipeline [rawB] [rawA] []

/-- Standalone non-reply S. -/
def tS3 : Tweet := mkT (some "s") (some "100") (some false) none none

/-- Standalone reply R targeting S. -/
def tR3 : Tweet := mkT (some "r") (some "200") (some true) (some "s") none

/-- A post inside conversation c. -/
def tP4 : Tweet := mkT (some "p") (some "100") (some false) none (some "c")

/-- An orphan reply targeting the post inside conversation c. -/
def tR4 : Tweet := mkT (some "r") (some "200") (some true) (some "p") none

/-- A conversation root. -/
def tR5 : Tweet := mkT (some "r") (some "100") (some false) none (some "c")

/-- A record with isReply false but a reply-target id inside the same
conversation: classified both as a local root and as a child. -/
def tX5 : Tweet := mkT (some "x") (some "200") (some false) (some "r") (some "c")

/-- Cycle: a replies to b. -/
def cycA : Tweet := mkT (some "a") (some "100") (some true) (some "b") (some "c")

/-- Cycle: b replies to a. -/
def cycB : Tweet := mkT (some "b") (some "200") (some true) (some "a") (some "c")

/-- The reference-list entry of post 5 marking 4 as its reply target,
with no inline embedded record. -/
def ref4 : RawRef := .mk (some "replied_to") none (some "4") none

/-- Post 5: carries only the references entry. -/
def raw5 : RawTweet := mkRaw (some "5") (some "post five") (some "500") none none none none (some [ref4])

/-- Record 4: appears only in the included batch. -/
def raw4 : RawTweet := mkRaw (some "4") (some "post four") (some "400") none none none none none

/-- The merged output of the reference-list scenario. -/
def c7out : List Tweet := fetchPipeline [raw5] [raw4] []

/-- A snapshot (and more generally a tweet) is clean when it carries no
repliedTo, no populated children, and none of the reply-linkage
fields. -/
def CleanTweet (s : Tweet) : Prop :=
  s.repliedTo = none ∧ s.children = none ∧ s.isReply = none ∧
  s.inReplyToId = none ∧ s.inReplyToStatusId = none ∧
  s.inReplyToTweetId = none ∧ s.conversationId = none ∧
  s.referencedTweets = none

/-! ### Heap embedding of organizeTweetsIntoThreads

To state the frame claim (the function mutates none of its input
objects and returns only freshly allocated nodes) the function is
embedded a second time with JavaScript object identity made explicit:
objects live in a store (a list indexed by allocation order), object
spread allocates at the end of the store, and the
`parentTweet.children = ...` assignment is a store update.  Only the
fields `organizeTweetsIntoThreads` reads or writes are carried;
`children` holds object references. -/

/-- A tweet object in the heap embedding. -/
structure HTweet where
  id : JStr
  isReply : Option Bool
  inReplyToId : JStr
  conversationId : JStr
  children : List Nat
deriving DecidableEq

/-- The all-undefined object (also the result of reading a dangling
reference). -/
def hEmpty : HTweet := ⟨none, none, none, none, []⟩

/-- Read an object from the store. -/
def hget (st : List HTweet) (r : Nat) : HTweet := st.getD r hEmpty

/-- Map.set for the id → object-reference map of the builder (same
shadowing-prepend model; this map too is only read back through
get). -/
def msetN (m : List (String × Nat)) (k : String) (v : Nat) :
    List (String × Nat) :=
  (k, v) :: m

/-- Map.get keyed by a possibly-undefined id. -/
def mgetN (m : List (String × Nat)) (k : JStr) : Option Nat :=
  match k with
  | none => none
  | some s => (m.find? (fun p => p.1 == s)).map (fun p => p.2)

/-- `{ ...tweetMap.get(k)!, children: [] }` in the heap embedding:
resolve the map entry to its object (or the undefined spread), reset
children, and allocate the copy at the end of the store.  Returns the
new store and the fresh reference. -/
def allocCopy (st : List HTweet) (m : List (String × Nat)) (k : JStr) :
    List HTweet × Nat :=
  let src := match mgetN m k with
    | some r => hget st r
    | none => hEmpty
  (st ++ [{ src with children := [] }], st.length)

/-- The tweet map of the builder: for every input object with a truthy
id, allocate a children-reset copy of it and bind the id to the fresh
reference (last set wins). -/
def buildTweetMapH (st0 : List HTweet) (input : List Nat) :
    List HTweet × List (String × Nat) :=
  input.foldl
    (fun acc r =>
      let o := hget acc.1 r
      if truthyS o.id then
        (acc.1 ++ [{ o with children := [] }],
         msetN acc.2 (o.id.getD "") acc.1.length)
      else acc)
    (st0, [])

/-- Conversation grouping over references. -/
def addToGroupN (gs : List (String × List Nat)) (k : String) (r : Nat) :
    List (String × List Nat) :=
  if gs.any (fun p => p.1 == k) then
    gs.map (fun p => if p.1 == k then (p.1, p.2 ++ [r]) else p)
  else gs ++ [(k, [r])]

/-- Partition the input references into conversation groups and
orphans, reading `conversationId` from the store. -/
def groupByConvH (st : List HTweet) (input : List Nat) :
    List (String × List Nat) × List Nat :=
  input.foldl
    (fun acc r =>
      let o := hget st r
      if truthyS o.conversationId then
        (addToGroupN acc.1 (o.conversationId.getD "") r, acc.2)
      else (acc.1, acc.2 ++ [r]))
    ([], [])

/-- Local root test in the heap embedding. -/
def isRootInH (convIds : List JStr) (o : HTweet) : Bool :=
  if !(truthyB o.isReply) || !(truthyS o.inReplyToId) then true
  else !(convIds.contains o.inReplyToId)

/-- `attachChildren` in the heap embedding: the guard reads the node
object, children are selected among the conversation objects, each
child is copied into a fresh allocation, recursed into, and finally
the node object's `children` field is overwritten in place with the
fresh references. -/
def attachH (conv : List Nat) (tmap : List (String × Nat)) :
    Nat → List HTweet → List JStr → Nat → List HTweet × List JStr
  | 0, st, pr, _ => (st, pr)
  | fuel + 1, st, pr, ref =>
    let node := hget st ref
    if pr.contains node.id then (st, pr)
    else
      let pr1 := node.id :: pr
      let kids := conv.filter
        (fun c => (hget st c).inReplyToId == node.id && (hget st c).id != node.id)
      if kids.isEmpty then (st, pr1)
      else
        let folded := kids.foldl
          (fun acc child =>
            let cp := allocCopy acc.1 tmap (hget acc.1 child).id
            let step := attachH conv tmap fuel cp.1 acc.2.1 cp.2
            (step.1, step.2, acc.2.2 ++ [cp.2]))
          (st, pr1, ([] : List Nat))
        let cur := hget folded.1 ref
        (folded.1.set ref { cur with children := folded.2.2 }, folded.2.1)

/-- One conversation group in the heap embedding. -/
def processConversationH (tmap : List (String × Nat)) (fuel : Nat)
    (st : List HTweet) (conv : List Nat) : List HTweet × List Nat :=
  let convIds := conv.map (fun r => (hget st r).id)
  let roots := conv.filter (fun r => isRootInH convIds (hget st r))
  let folded := roots.foldl
    (fun acc root =>
      let cp := allocCopy acc.1 tmap (hget acc.1 root).id
      let step := attachH conv tmap fuel cp.1 acc.2.1 cp.2
      (step.1, step.2, acc.2.2 ++ [cp.2]))
    (st, ([] : List JStr), ([] : List Nat))
  (folded.1, folded.2.2)

/-- The orphan branch in the heap embedding. -/
def processOrphanH (input : List Nat) (tmap : List (String × Nat))
    (st : List HTweet) (r : Nat) : List HTweet × List Nat :=
  let o := hget st r
  if !(truthyB o.isReply) || !(truthyS o.inReplyToId) then
    let cp := allocCopy st tmap o.id
    (cp.1, [cp.2])
  else
    match input.find? (fun u => (hget st u).id == o.inReplyToId) with
    | some p =>
        if truthyS (hget st p).conversationId then (st, [])
        else
          let cp := allocCopy st tmap o.id
          (cp.1, [cp.2])
    | none =>
        let cp := allocCopy st tmap o.id
        (cp.1, [cp.2])

/-- The whole of `organizeTweetsIntoThreads` in the heap embedding:
returns the final store and the references of the root forest. -/
def organizeH (st0 : List HTweet) (input : List Nat) :
    List HTweet × List Nat :=
  let built := buildTweetMapH st0 input
  let st1 := built.1
  let tmap := built.2
  let parts := groupByConvH st1 input
  let fuel := input.length + 2
  let afterConv := parts.1.foldl
    (fun acc g =>
      let step := processConversationH tmap fuel acc.1 g.2
      (step.1, acc.2 ++ step.2))
    (st1, ([] : List Nat))
  parts.2.foldl
    (fun acc r =>
      let step := processOrphanH input tmap acc.1 r
      (step.1, acc.2 ++ step.2))
    afterConv

/-- A store extends another when it appends to it (no existing object
was replaced). -/
def InitSeg (a b : List HTweet) : Prop := ∃ c, b = a ++ c

/-- Every object at a fresh index (at or beyond the watermark `n`) has
only fresh children references. -/
def FreshOk (n : Nat) (st : List HTweet) : Prop :=
  ∀ i, n ≤ i → ∀ c ∈ (hget st i).children, n ≤ c

/-- The store invariant of the builder relative to the input store:
the input region is untouched (the final store extends it), and every
fresh object points only at fresh objects. -/
def HInv (st0 st : List HTweet) : Prop :=
  InitSeg st0 st ∧ FreshOk st0.length st


/-! ### Id universe and recursion measure of the thread builder

The recursion of `attachChildren` is bounded because every expansion
adds a previously unseen id to the shared processed set, and every id
it can meet belongs to the finite universe drawn from the builder map
(plus `undefined` for dangling copies). -/

/-- A builder map is well formed when every stored copy carries the id
it is keyed under. -/
def TMapOk (tmap : List (String × Tweet)) : Prop :=
  ∀ p ∈ tmap, (p.2).id = some p.1

/-- The ids reachable by node copies: the map keys and undefined. -/
def idUniverse (tmap : List (String × Tweet)) : Finset JStr :=
  insert none ((tmap.map (fun p => (some p.1 : JStr))).toFinset)

/-- How many reachable ids are not yet in the processed set. -/
def measureP (tmap : List (String × Tweet)) (pr : List JStr) : Nat :=
  ((idUniverse tmap).filter (fun i => i ∉ pr)).card

/-!
## Theorems

The development above is purely definitional; everything below is a
proof about it.  Helper lemmas come first, the claim theorems follow.
-/

/-! ### Field-preservation helpers -/

@[simp] theorem setChildren_id (t : Tweet) (ch) : (t.setChildren ch).id = t.id := by
  cases t; rfl

@[simp] theorem setChildren_createdAt (t : Tweet) (ch) :
    (t.setChildren ch).createdAt = t.createdAt := by
  cases t; rfl

@[simp] theorem setChildren_isReply (t : Tweet) (ch) :
    (t.setChildren ch).isReply = t.isReply := by
  cases t; rfl

@[simp] theorem setChildren_inReplyToId (t : Tweet) (ch) :
    (t.setChildren ch).inReplyToId = t.inReplyToId := by
  cases t; rfl

@[simp] theorem setChildren_conversationId (t : Tweet) (ch) :
    (t.setChildren ch).conversationId = t.conversationId := by
  cases t; rfl

@[simp] theorem setChildren_repliedTo (t : Tweet) (ch) :
    (t.setChildren ch).repliedTo = t.repliedTo := by
  cases t; rfl

@[simp] theorem setChildren_children (t : Tweet) (ch) :
    (t.setChildren ch).children = ch := by
  cases t; rfl

@[simp] theorem setConv_id (t : Tweet) (c) : (t.setConv c).id = t.id := by
  cases t; rfl

@[simp] theorem setSource_id (t : Tweet) (s) : (t.setSource s).id = t.id := by
  cases t; rfl

@[simp] theorem setSource_conversationId (t : Tweet) (s) :
    (t.setSource s).conversationId = t.conversationId := by
  cases t; rfl

@[simp] theorem setConv_conversationId (t : Tweet) (c) :
    (t.setConv c).conversationId = c := by
  cases t; rfl

@[simp] theorem processMainTweet_id (tmap raws t) :
    (processMainTweet tmap raws t).id = t.id := rfl

/-! ### Generic list helpers -/

theorem list_getD_map (l : List α) (f : α → β) (i : Nat) (d : α) :
    (l.map f).getD i (f d) = f (l.getD i d) := by
  induction l generalizing i with
  | nil => rfl
  | cons a t ih =>
      cases i with
      | zero => rfl
      | succ n => exact ih n

theorem list_set_getD (l : List α) (i : Nat) (d : α) :
    l.set i (l.getD i d) = l := by
  induction l generalizing i with
  | nil => rfl
  | cons a t ih =>
      cases i with
      | zero => rfl
      | succ n => simpa using ih n

/-! ### Id bookkeeping through the merge (claim C1) -/

theorem backfillStep_snd_ids (f src ms t) :
    ((backfillStep f src ms t).2).map Tweet.id = ms.map Tweet.id := by
  unfold backfillStep
  cases processRawTweet t with
  | none => rfl
  | some p =>
      cases h : ms.findIdx? (fun m => f m t.id) with
      | none => rfl
      | some i =>
          simp only
          split_ifs with h1 h2
          · rfl
          · simp only
            rw [List.map_set]
            simp only [setConv_id]
            rw [show (ms.getD i emptyTweet).id =
                  (ms.map Tweet.id).getD i (Tweet.id emptyTweet) from
                (list_getD_map ms Tweet.id i emptyTweet).symm]
            exact list_set_getD _ i _
          · rfl

theorem backfillStep_fst_id (f src ms t) (h : truthyS t.id = true) :
    ∃ tw ms', backfillStep f src ms t = (some tw, ms') ∧ tw.id = t.id := by
  unfold backfillStep
  have hp : processRawTweet t =
      some (.mk t.id (jsOrS t.text (jsOrS t.full_text (some "")))
        (jsOrS t.createdAt (jsOrS t.created_at (some "")))
        (some (t.isReply.getD (truthyS (rawReplyId7 t))))
        (orUndef (jsOrS t.inReplyToId (rawReplyId7 t)))
        (jsOrS t.in_reply_to_status_id t.inReplyToStatusId)
        (jsOrS t.in_reply_to_tweet_id t.inReplyToTweetId)
        (orUndef t.conversationId)
        (jsOrO t.referenced_tweets t.referencedTweets)
        none none none) := by
    unfold processRawTweet
    rw [h]
    rfl
  rw [hp]
  cases ms.findIdx? (fun m => f m t.id) with
  | none => exact ⟨_, _, rfl, rfl⟩
  | some i =>
      simp only
      split_ifs with h1 h2
      · exact ⟨_, _, rfl, rfl⟩
      · exact ⟨_, _, rfl, rfl⟩
      · exact ⟨_, _, rfl, rfl⟩

/-- The accumulator-generalized description of `processBatch`: the
main-tweet ids are untouched and the produced ids are the batch ids,
provided every batch record has a truthy id. -/
theorem processBatch_fold_ids (f src) (batch : List RawTweet)
    (hz : ∀ t ∈ batch, truthyS t.id = true) :
    ∀ out0 ms0,
      ((batch.foldl
        (fun acc t =>
          let (out, ms) := acc
          let (p, ms') := backfillStep f src ms t
          match p with
          | some tw => (out ++ [tw], ms')
          | none => (out, ms')) (out0, ms0)).1).map Tweet.id =
        out0.map Tweet.id ++ batch.map RawTweet.id ∧
      ((batch.foldl
        (fun acc t =>
          let (out, ms) := acc
          let (p, ms') := backfillStep f src ms t
          match p with
          | some tw => (out ++ [tw], ms')
          | none => (out, ms')) (out0, ms0)).2).map Tweet.id =
        ms0.map Tweet.id := by
  induction batch with
  | nil => intro out0 ms0; simp
  | cons t ts ih =>
      intro out0 ms0
      have ht : truthyS t.id = true := hz t (by simp)
      obtain ⟨tw, ms', heq, hid⟩ := backfillStep_fst_id f src ms0 t ht
      have hms' : ms'.map Tweet.id = ms0.map Tweet.id := by
        have := backfillStep_snd_ids f src ms0 t
        rw [heq] at this
        exact this
      have ihs := ih (fun u hu => hz u (by simp [hu])) (out0 ++ [tw]) ms'
      simp only [List.foldl_cons, heq]
      refine ⟨?_, ?_⟩
      · rw [ihs.1]
        simp [hid]
      · rw [ihs.2, hms']

theorem processBatch_ids (f src ms) (batch : List RawTweet)
    (hz : ∀ t ∈ batch, truthyS t.id = true) :
    ((processBatch f src ms batch).1).map Tweet.id = batch.map RawTweet.id ∧
    ((processBatch f src ms batch).2).map Tweet.id = ms.map Tweet.id := by
  have := processBatch_fold_ids f src batch hz [] ms
  simpa [processBatch] using this

/-- The ids of the merged canonical set: the raw main ids, then the
ids of each filtered supplementary batch. -/
theorem fetchPipeline_ids (raws incl repl : List RawTweet) :
    (fetchPipeline raws incl repl).map Tweet.id =
      raws.map RawTweet.id ++
      (filterBatch (raws.map RawTweet.id) incl).map RawTweet.id ++
      (filterBatch (raws.map RawTweet.id) repl).map RawTweet.id := by
  unfold fetchPipeline
  simp only
  have hmains : (raws.map (processMainTweet (buildRawMap raws incl repl) raws)).map
      Tweet.id = raws.map RawTweet.id := by
    rw [List.map_map]; rfl
  have hz1 : ∀ t ∈ filterBatch (((raws.map
      (processMainTweet (buildRawMap raws incl repl) raws))).map Tweet.id) incl,
      truthyS t.id = true := by
    intro t ht
    have := List.of_mem_filter ht
    exact (Bool.and_eq_true_iff.mp this).1
  have hz2 : ∀ t ∈ filterBatch (((raws.map
      (processMainTweet (buildRawMap raws incl repl) raws))).map Tweet.id) repl,
      truthyS t.id = true := by
    intro t ht
    have := List.of_mem_filter ht
    exact (Bool.and_eq_true_iff.mp this).1
  have h1 := processBatch_ids matchesIncludes .includes
    (raws.map (processMainTweet (buildRawMap raws incl repl) raws))
    (filterBatch (((raws.map (processMainTweet (buildRawMap raws incl repl) raws))).map
      Tweet.id) incl) hz1
  have h2 := processBatch_ids matchesRepliedTo .replied_to
    ((processBatch matchesIncludes .includes
      (raws.map (processMainTweet (buildRawMap raws incl repl) raws))
      (filterBatch (((raws.map (processMainTweet (buildRawMap raws incl repl) raws))).map
        Tweet.id) incl)).2)
    (filterBatch (((raws.map (processMainTweet (buildRawMap raws incl repl) raws))).map
      Tweet.id) repl) hz2
  simp only [List.map_append]
  rw [h2.2, h1.2, h1.1, h2.1, hmains]

/-- C2 counterexample: with post A (id 1, no conversationId) in the
included batch and post B (id 2, reply-target 1, no conversationId) in
the primary batch, the composed output has exactly one conversation
group and its key is 2 — there is no group keyed 1, contradicting the
claimed key. -/
theorem c2_group_key_not_one :
    ((composePipeline c2merged).1).map Prod.fst = ["2"] ∧
    "1" ∉ ((composePipeline c2merged).1).map Prod.fst := by
  constructor
  · rfl
  · decide

/-- C2 (amended): for that input the pipeline places both records in a
single conversation group whose key is 2 (the referencing record B
mints its own id as the synthetic conversation id for both records),
with A as the root of the group's only tree and B as A's sole child;
nothing is standalone. -/
theorem c2_backfill_group_key_two :
    c2merged.map (fun t => (t.id, t.conversationId)) =
      [(some "2", some "2"), (some "1", some "2")] ∧
    ((composePipeline c2merged).1).map Prod.fst = ["2"] ∧
    ((composePipeline c2merged).1).map
        (fun p => p.2.map (fun t => (t.id, (t.children.getD []).map Tweet.id))) =
      [[(some "1", [some "2"])]] ∧
    ((composePipeline c2merged).1).map
        (fun p => p.2.map (fun t => (t.children.getD []).map
          (fun c => (c.children.getD []).length))) = [[[0]]] ∧
    (composePipeline c2merged).2.length = 0 := by
  refine ⟨rfl, rfl, by decide, by decide, rfl⟩

/-- C4: the failing input.  P sits in conversation c; R is an orphan
reply (no conversationId) whose target P exists in the batch and
carries a conversationId.  The claim says R is folded into the
conversation and appears in the output forest; the code only logs in
that branch, so R vanishes: the output forest is exactly the P tree
and contains no node with id r. -/
theorem c4_orphan_reply_vanishes :
    (organizeTweetsIntoThreads [tP4, tR4]).map Tweet.id = [some "p"] ∧
    ((forestNodes (organizeTweetsIntoThreads [tP4, tR4])).map Tweet.id).contains
        (some "r") = false := by
  exact ⟨rfl, rfl⟩

/-- C7: post 5 carries a references entry marking 4 as its reply
target with no inline record, and 4 appears only in the included
batch.  In the merged output, post 5's repliedTo equals the
depth-limited snapshot of record 4, and record 4 still appears as its
own entity with provenance includes. -/
theorem c7_reference_list_resolution :
    c7out.map Tweet.id = [some "5", some "4"] ∧
    (c7out.getD 0 emptyTweet).repliedTo = some (createCleanRepliedToTweet raw4) ∧
    (c7out.getD 1 emptyTweet).source = some Prov.includes := by
  exact ⟨rfl, rfl, rfl⟩

/-- C1 counterexample: one record with id x in the included batch and
one with the same id in the replied-to batch, primary empty.  Both
survive the merge (each filtered sub-list is checked only against the
primary ids), so id x occurs twice in the merged canonical set. -/
theorem c1_cross_batch_duplicate :
    (fetchPipeline [] [c1raw] [c1raw]).map Tweet.id = [some "x", some "x"] ∧
    ¬ ((fetchPipeline [] [c1raw] [c1raw]).map Tweet.id).Nodup := by
  constructor
  · rfl
  · decide

/-- C3 counterexample: standalone S and standalone R whose resolved
reply-target id equals S's id.  The standalone pseudo-group emits R as
a separate root (with empty children) next to S instead of attaching
it as S's child, so the child-attachment rule does not apply there. -/
theorem c3_standalone_reply_not_attached :
    (organizeTweetsIntoThreads [tS3, tR3]).map
        (fun t => (t.id, (t.children.getD []).map Tweet.id)) =
      [(some "s", []), (some "r", [])] := by
  rfl

/-- C5 counterexample: in conversation c, R is a root and X carries
isReply false together with a reply-target id equal to R's id.  X is
then classified both as a local root and as a child of R, so the node
with id x is attached twice in the resulting forest. -/
theorem c5_node_attached_twice :
    (forestNodes (organizeTweetsIntoThreads [tR5, tX5])).map Tweet.id =
      [some "r", some "x", some "x"] ∧
    ((forestNodes (organizeTweetsIntoThreads [tR5, tX5])).map Tweet.id).count
        (some "x") = 2 := by
  constructor
  · rfl
  · decide

/-- C9 counterexample: a truthy non-array value in the primary batch
location survives the `|| []` default and the engine then iterates
over it, raising a TypeError that the surrounding catch rethrows —
the call does not complete with a forest. -/
theorem c9_nonarray_throws :
    fetchTweetsFromResponse .nonArray .missing .missing = .error () := by
  rfl

/-- C1 (amended): no id appears twice in the merged canonical set
provided the ids inside each raw batch are pairwise distinct and the
included and replied-to batches share no id.  The merge itself only
guarantees that the two filtered sub-lists avoid the primary ids; it
never compares the filtered sub-lists with each other, nor entries of
one batch among themselves. -/
theorem c1_merged_ids_nodup (raws incl repl : List RawTweet)
    (h1 : (raws.map RawTweet.id).Nodup)
    (h2 : (incl.map RawTweet.id).Nodup)
    (h3 : (repl.map RawTweet.id).Nodup)
    (h4 : ∀ i ∈ incl.map RawTweet.id, i ∉ repl.map RawTweet.id) :
    ((fetchPipeline raws incl repl).map Tweet.id).Nodup := by
  rw [fetchPipeline_ids]
  have memB : ∀ a ∈ (filterBatch (raws.map RawTweet.id) incl).map RawTweet.id,
      a ∈ incl.map RawTweet.id ∧ a ∉ raws.map RawTweet.id := by
    intro a ha
    obtain ⟨t, ht, rfl⟩ := List.mem_map.mp ha
    have hm := List.mem_filter.mp ht
    refine ⟨List.mem_map.mpr ⟨t, hm.1, rfl⟩, ?_⟩
    have hnc := (Bool.and_eq_true_iff.mp hm.2).2
    intro hmem
    rw [Bool.not_eq_true'] at hnc
    rw [List.contains_eq_any_beq, List.any_eq_false] at hnc
    exact hnc _ hmem (by simp)
  have memC : ∀ a ∈ (filterBatch (raws.map RawTweet.id) repl).map RawTweet.id,
      a ∈ repl.map RawTweet.id ∧ a ∉ raws.map RawTweet.id := by
    intro a ha
    obtain ⟨t, ht, rfl⟩ := List.mem_map.mp ha
    have hm := List.mem_filter.mp ht
    refine ⟨List.mem_map.mpr ⟨t, hm.1, rfl⟩, ?_⟩
    have hnc := (Bool.and_eq_true_iff.mp hm.2).2
    intro hmem
    rw [Bool.not_eq_true'] at hnc
    rw [List.contains_eq_any_beq, List.any_eq_false] at hnc
    exact hnc _ hmem (by simp)
  have hB : ((filterBatch (raws.map RawTweet.id) incl).map RawTweet.id).Nodup :=
    ((List.filter_sublist _).map _).nodup h2
  have hC : ((filterBatch (raws.map RawTweet.id) repl).map RawTweet.id).Nodup :=
    ((List.filter_sublist _).map _).nodup h3
  rw [List.append_assoc, List.nodup_append]
  refine ⟨h1, ?_, ?_⟩
  · rw [List.nodup_append]
    exact ⟨hB, hC, fun a haB haC => h4 a (memB a haB).1 (memC a haC).1⟩
  · intro a haA haBC
    rcases List.mem_append.mp haBC with hb | hc
    · exact (memB a hb).2 haA
    · exact (memC a hc).2 haA

/-- Witness for the amended C1 at a concrete input with distinct ids
across all three batches. -/
theorem c1_merged_ids_nodup_witness :
    (([rawB].map RawTweet.id).Nodup ∧ ([rawA].map RawTweet.id).Nodup ∧
     ([c1raw].map RawTweet.id).Nodup ∧
     ∀ i ∈ [rawA].map RawTweet.id, i ∉ [c1raw].map RawTweet.id) ∧
    ((fetchPipeline [rawB] [rawA] [c1raw]).map Tweet.id).Nodup :=
  ⟨⟨by decide, by decide, by decide, by decide⟩,
   c1_merged_ids_nodup [rawB] [rawA] [c1raw]
     (by decide) (by decide) (by decide) (by decide)⟩

/-! ### Map lookup lemmas for the thread builder -/

theorem mgetT_msetT_self (m : List (String × Tweet)) (k : String) (v : Tweet) :
    mgetT (msetT m k v) (some k) = some v := by
  simp [msetT, mgetT, List.find?]

theorem mgetT_msetT_ne (m : List (String × Tweet)) (k : String) (v : Tweet)
    (k' : String) (h : k' ≠ k) : mgetT (msetT m k v) (some k') = mgetT m (some k') := by
  simp only [msetT, mgetT, List.find?]
  have : (k == k') = false := by
    simp only [beq_eq_false_iff_ne, ne_eq]
    exact fun he => h he.symm
  rw [this]

/-- Folding further tweets whose ids differ from `k` over the builder
map does not disturb the binding at `k`. -/
theorem buildTweetMap_fold_preserve (rest : List Tweet)
    (h : ∀ t ∈ rest, t.id ≠ k) :
    ∀ m : List (String × Tweet),
      mgetT (rest.foldl
        (fun m t =>
          if truthyS t.id then msetT m (t.id.getD "") (t.setChildren (some []))
          else m) m) k = mgetT m k := by
  induction rest with
  | nil => intro m; rfl
  | cons u us ih =>
      intro m
      simp only [List.foldl_cons]
      rw [ih (fun t ht => h t (by simp [ht]))]
      by_cases hu : truthyS u.id
      · simp only [hu, if_true]
        cases hk : k with
        | none => rfl
        | some s =>
            obtain ⟨x, hx⟩ : ∃ x, u.id = some x := by
              cases hiu : u.id with
              | none => rw [hiu] at hu; simp [truthyS] at hu
              | some y => exact ⟨y, rfl⟩
            have hxs : x ≠ s := by
              intro he
              exact h u (by simp) (by rw [hx, he, hk])
            have hgd : u.id.getD "" = x := by rw [hx]; rfl
            rw [hgd]
            exact mgetT_msetT_ne _ _ _ s (fun he => hxs he.symm)
      · simp [hu]

theorem setChildren_setChildren (t : Tweet) (a b) :
    (t.setChildren a).setChildren b = t.setChildren b := by
  cases t; rfl

/-- Under truthy, pairwise-distinct ids, the builder map resolves each
input tweet to its own children-reset copy. -/
theorem buildTweetMap_get (ts : List Tweet)
    (hid : ∀ t ∈ ts, truthyS t.id = true)
    (hnd : (ts.map Tweet.id).Nodup) :
    ∀ t ∈ ts, mgetT (buildTweetMap ts) t.id = some (t.setChildren (some [])) := by
  suffices h : ∀ m : List (String × Tweet), ∀ t ∈ ts,
      mgetT (ts.foldl
        (fun m t =>
          if truthyS t.id then msetT m (t.id.getD "") (t.setChildren (some []))
          else m) m) t.id = some (t.setChildren (some [])) from
    fun t ht => h [] t ht
  induction ts with
  | nil => intro m t ht; cases ht
  | cons u us ih =>
      simp only [List.map_cons, List.nodup_cons] at hnd
      intro m t ht
      simp only [List.foldl_cons]
      have hu : truthyS u.id = true := hid u (by simp)
      rcases List.mem_cons.mp ht with rfl | hts
      · -- the head: its binding is set now and preserved afterwards
        have hpres : ∀ v ∈ us, v.id ≠ t.id := by
          intro v hvus he
          exact hnd.1 (List.mem_map.mpr ⟨v, hvus, he⟩)
        rw [buildTweetMap_fold_preserve us hpres]
        simp only [hu, if_true]
        obtain ⟨s, hs⟩ : ∃ s, t.id = some s := by
          cases hiu : t.id with
          | none => rw [hiu] at hu; simp [truthyS] at hu
          | some x => exact ⟨x, rfl⟩
        have hgd : t.id.getD "" = s := by rw [hs]; rfl
        rw [hgd, hs]
        exact mgetT_msetT_self _ s _
      · exact ih (fun v h' => hid v (by simp [h'])) hnd.2 _ t hts

theorem getBangT_eq (ts : List Tweet)
    (hid : ∀ t ∈ ts, truthyS t.id = true)
    (hnd : (ts.map Tweet.id).Nodup)
    (t : Tweet) (ht : t ∈ ts) :
    getBangT (buildTweetMap ts) t.id = t.setChildren (some []) := by
  unfold getBangT
  rw [buildTweetMap_get ts hid hnd t ht]

/-! ### The standalone pseudo-group (claim C3) -/

theorem groupByConv_fold_orphans (ts : List Tweet)
    (h : ∀ t ∈ ts, truthyS t.conversationId = false) :
    ∀ gs os,
      ts.foldl
        (fun acc t =>
          if truthyS t.conversationId then
            (addToGroup acc.1 (t.conversationId.getD "") t, acc.2)
          else (acc.1, acc.2 ++ [t])) (gs, os) = (gs, os ++ ts) := by
  induction ts with
  | nil => intro gs os; simp
  | cons u us ih =>
      intro gs os
      simp only [List.foldl_cons]
      have hu := h u (by simp)
      simp only [hu, Bool.false_eq_true, if_false]
      rw [ih (fun t ht => h t (by simp [ht])) gs (os ++ [u])]
      simp

theorem groupByConv_all_orphans (ts : List Tweet)
    (h : ∀ t ∈ ts, truthyS t.conversationId = false) :
    groupByConv ts = ([], ts) := by
  unfold groupByConv
  have := groupByConv_fold_orphans ts h [] []
  simpa using this

/-- When no record of the batch has a conversation id, every orphan
branch pushes a standalone copy (a found parent cannot be in a
conversation). -/
theorem processOrphan_push (all : List Tweet) (tmap) (t : Tweet)
    (hconv : ∀ u ∈ all, truthyS u.conversationId = false) :
    processOrphan all tmap t = [(getBangT tmap t.id).setChildren (some [])] := by
  unfold processOrphan
  by_cases hr : (!(truthyB t.isReply) || !(truthyS t.inReplyToId)) = true
  · simp [hr]
  · simp only [hr, if_false, Bool.false_eq_true]
    cases hf : all.find? (fun u => u.id == t.inReplyToId) with
    | none => rfl
    | some parent =>
        have hp : parent ∈ all := List.mem_of_find?_eq_some hf
        simp [hconv parent hp]

theorem fold_append_singleton (ts : List α) (f : α → List β) (g : α → β)
    (h : ∀ t ∈ ts, f t = [g t]) :
    ∀ acc : List β, ts.foldl (fun acc t => acc ++ f t) acc = acc ++ ts.map g := by
  induction ts with
  | nil => intro acc; simp
  | cons u us ih =>
      intro acc
      simp only [List.foldl_cons, List.map_cons]
      rw [h u (by simp), ih (fun t ht => h t (by simp [ht]))]
      simp

/-- On a batch with no conversation ids (truthy distinct ids assumed),
the thread builder returns exactly one childless root per input
record, in input order — it attaches nothing. -/
theorem organize_standalone (ts : List Tweet)
    (hconv : ∀ t ∈ ts, truthyS t.conversationId = false)
    (hid : ∀ t ∈ ts, truthyS t.id = true)
    (hnd : (ts.map Tweet.id).Nodup) :
    organizeTweetsIntoThreads ts = ts.map (fun t => t.setChildren (some [])) := by
  unfold organizeTweetsIntoThreads organizeFuel
  rw [groupByConv_all_orphans ts hconv]
  simp only [List.foldl_nil]
  rw [fold_append_singleton ts _ (fun t => t.setChildren (some []))
    (fun t ht => by
      rw [processOrphan_push ts _ t hconv, getBangT_eq ts hid hnd t ht,
        setChildren_setChildren])]
  simp

/-- C3 (amended): the child-attachment rule does not apply to the
standalone pseudo-group at all.  Every standalone record (truthy
pairwise-distinct ids assumed) is emitted as its own root with empty
children; in particular a standalone record whose resolved reply
target is another standalone record is emitted as a separate root
beside it rather than attached as its child. -/
theorem c3_standalone_no_attachment (ts : List Tweet)
    (hconv : ∀ t ∈ ts, truthyS t.conversationId = false)
    (hid : ∀ t ∈ ts, truthyS t.id = true)
    (hnd : (ts.map Tweet.id).Nodup) :
    organizeTweetsIntoThreads ts = ts.map (fun t => t.setChildren (some [])) :=
  organize_standalone ts hconv hid hnd

/-- Witness for the amended C3 at the concrete standalone pair. -/
theorem c3_standalone_no_attachment_witness :
    ((∀ t ∈ [tS3, tR3], truthyS t.conversationId = false) ∧
     (∀ t ∈ [tS3, tR3], truthyS t.id = true) ∧
     (([tS3, tR3].map Tweet.id).Nodup)) ∧
    organizeTweetsIntoThreads [tS3, tR3] =
      [tS3, tR3].map (fun t => t.setChildren (some [])) :=
  ⟨⟨by decide, by decide, by decide⟩,
   c3_standalone_no_attachment [tS3, tR3] (by decide) (by decide) (by decide)⟩

/-- C9 (amended): an absent, null or otherwise falsy batch value is
replaced by the empty array and the engine completes normally,
returning the forest of the remaining batches (the empty forest when
everything is missing); only a truthy non-array batch value raises. -/
theorem c9_falsy_batch_empty (b1 b2 b3 : BatchV)
    (h1 : b1.bad = false) (h2 : b2.bad = false) (h3 : b3.bad = false) :
    fetchTweetsFromResponse b1 b2 b3 =
      .ok (fetchPipeline b1.toList b2.toList b3.toList) ∧
    fetchTweetsFromResponse b1 b2 b3 =
      fetchTweetsFromResponse (.arr b1.toList) (.arr b2.toList) (.arr b3.toList) ∧
    fetchTweetsFromResponse .missing .missing .missing = .ok [] := by
  refine ⟨?_, ?_, rfl⟩
  · unfold fetchTweetsFromResponse
    simp [h1, h2, h3]
  · have e1 : (BatchV.arr b1.toList).bad = false := rfl
    have e2 : (BatchV.arr b2.toList).bad = false := rfl
    have e3 : (BatchV.arr b3.toList).bad = false := rfl
    have t1 : (BatchV.arr b1.toList).toList = b1.toList := rfl
    have t2 : (BatchV.arr b2.toList).toList = b2.toList := rfl
    have t3 : (BatchV.arr b3.toList).toList = b3.toList := rfl
    unfold fetchTweetsFromResponse
    rw [h1, h2, h3, e1, e2, e3, t1, t2, t3]

/-- Witness for the amended C9 with one missing batch and two array
batches. -/
theorem c9_falsy_batch_empty_witness :
    (BatchV.missing.bad = false ∧ (BatchV.arr [rawA]).bad = false ∧
     (BatchV.arr []).bad = false) ∧
    fetchTweetsFromResponse .missing (.arr [rawA]) (.arr []) =
      .ok (fetchPipeline BatchV.missing.toList (BatchV.arr [rawA]).toList
        (BatchV.arr []).toList) :=
  ⟨⟨rfl, rfl, rfl⟩,
   (c9_falsy_batch_empty .missing (.arr [rawA]) (.arr []) rfl rfl rfl).1⟩


/-! ### Frame and freshness of the heap embedding (claim C10) -/

theorem list_getD_append_left (a c : List α) (r : Nat) (d : α)
    (h : r < a.length) : (a ++ c).getD r d = a.getD r d := by
  induction a generalizing r with
  | nil => cases h
  | cons x xs ih =>
      cases r with
      | zero => rfl
      | succ n => exact ih n (Nat.lt_of_succ_lt_succ h)

theorem list_set_append_right (a c : List α) (r : Nat) (o : α)
    (h : a.length ≤ r) : (a ++ c).set r o = a ++ c.set (r - a.length) o := by
  induction a generalizing r with
  | nil => simp
  | cons x xs ih =>
      cases r with
      | zero => cases h
      | succ n =>
          have hx : xs.length ≤ n := by
            simp only [List.length_cons] at h
            omega
          simp only [List.cons_append, List.length_cons, List.set_cons_succ]
          rw [ih n hx]
          have : n + 1 - (xs.length + 1) = n - xs.length := by omega
          rw [this]

theorem list_getD_set_ne (st : List α) (r i : Nat) (o : α) (d : α)
    (h : r ≠ i) : (st.set r o).getD i d = st.getD i d := by
  induction st generalizing r i with
  | nil => rfl
  | cons x xs ih =>
      cases r with
      | zero =>
          cases i with
          | zero => exact absurd rfl h
          | succ j => rfl
      | succ n =>
          cases i with
          | zero => rfl
          | succ j => exact ih n j (fun he => h (by rw [he]))

theorem list_getD_set_self (st : List α) (r : Nat) (o d : α)
    (h : r < st.length) : (st.set r o).getD r d = o := by
  induction st generalizing r with
  | nil => cases h
  | cons x xs ih =>
      cases r with
      | zero => rfl
      | succ n => exact ih n (Nat.lt_of_succ_lt_succ h)

theorem hget_out (st : List HTweet) (i : Nat) (h : st.length ≤ i) :
    hget st i = hEmpty := by
  unfold hget
  rw [List.getD_eq_getElem?_getD, List.getElem?_eq_none h]
  rfl

theorem hget_append_self (st : List HTweet) (o : HTweet) :
    hget (st ++ [o]) st.length = o := by
  unfold hget
  rw [List.getD_eq_getElem?_getD, List.getElem?_append_right (Nat.le_refl _)]
  simp

theorem initSeg_refl (a : List HTweet) : InitSeg a a := ⟨[], by simp⟩

theorem initSeg_alloc (a : List HTweet) (o : HTweet) : InitSeg a (a ++ [o]) :=
  ⟨[o], rfl⟩

theorem initSeg_trans {a b c : List HTweet} (h1 : InitSeg a b)
    (h2 : InitSeg b c) : InitSeg a c := by
  obtain ⟨x, rfl⟩ := h1
  obtain ⟨y, rfl⟩ := h2
  exact ⟨x ++ y, by simp⟩

theorem initSeg_length {a b : List HTweet} (h : InitSeg a b) :
    a.length ≤ b.length := by
  obtain ⟨x, rfl⟩ := h
  simp

theorem initSeg_set {a b : List HTweet} (r : Nat) (o : HTweet)
    (h : InitSeg a b) (hr : a.length ≤ r) : InitSeg a (b.set r o) := by
  obtain ⟨x, rfl⟩ := h
  rw [list_set_append_right a x r o hr]
  exact ⟨_, rfl⟩

theorem initSeg_hget {a b : List HTweet} (h : InitSeg a b) (r : Nat)
    (hr : r < a.length) : hget b r = hget a r := by
  obtain ⟨x, rfl⟩ := h
  exact list_getD_append_left a x r hEmpty hr

theorem hInv_refl (st0 : List HTweet) : HInv st0 st0 := by
  refine ⟨initSeg_refl st0, fun i hi c hc => ?_⟩
  rw [hget_out st0 i hi] at hc
  cases hc

theorem freshOk_alloc {n : Nat} {st : List HTweet} (h : FreshOk n st)
    (o : HTweet) (ho : ∀ c ∈ o.children, n ≤ c) : FreshOk n (st ++ [o]) := by
  intro i hi c hc
  by_cases hlt : i < st.length
  · rw [hget, list_getD_append_left st [o] i hEmpty hlt] at hc
    exact h i hi c hc
  · by_cases heq : i = st.length
    · subst heq
      rw [hget_append_self st o] at hc
      exact ho c hc
    · have hout : (st ++ [o]).length ≤ i := by
        simp only [List.length_append, List.length_cons, List.length_nil]
        omega
      rw [hget_out _ i hout] at hc
      cases hc

theorem freshOk_set {n : Nat} {st : List HTweet} (h : FreshOk n st)
    (r : Nat) (cur : HTweet) (cs : List Nat) (hcs : ∀ c ∈ cs, n ≤ c) :
    FreshOk n (st.set r { cur with children := cs }) := by
  intro i hi c hc
  by_cases he : r = i
  · subst he
    by_cases hlt : r < st.length
    · rw [hget, list_getD_set_self st r _ hEmpty hlt] at hc
      exact hcs c hc
    · rw [hget, List.set_eq_of_length_le (Nat.le_of_not_lt hlt)] at hc
      exact h r hi c hc
  · rw [hget, list_getD_set_ne st r i _ hEmpty he] at hc
    exact h i hi c hc

theorem allocCopy_inv {st0 st : List HTweet} (h : HInv st0 st)
    (m : List (String × Nat)) (k : JStr) :
    HInv st0 (allocCopy st m k).1 ∧ (allocCopy st m k).2 = st.length ∧
    st0.length ≤ (allocCopy st m k).2 ∧
    (allocCopy st m k).1.length = st.length + 1 := by
  refine ⟨⟨initSeg_trans h.1 (initSeg_alloc _ _), freshOk_alloc h.2 _ ?_⟩,
    rfl, initSeg_length h.1, by simp [allocCopy]⟩
  intro c hc
  simp at hc

theorem attachH_inv (st0 : List HTweet) (conv : List Nat)
    (tmap : List (String × Nat)) :
    ∀ fuel st pr ref, HInv st0 st → st0.length ≤ ref →
      HInv st0 (attachH conv tmap fuel st pr ref).1 ∧
      st.length ≤ (attachH conv tmap fuel st pr ref).1.length := by
  intro fuel
  induction fuel with
  | zero => intro st pr ref h _; exact ⟨h, Nat.le_refl _⟩
  | succ n ih =>
      intro st pr ref h href
      show HInv st0 (attachH conv tmap (n + 1) st pr ref).1 ∧ _
      rw [attachH]
      by_cases hg : pr.contains (hget st ref).id
      · simp only [hg, if_true]
        exact ⟨h, Nat.le_refl _⟩
      · simp only [hg, Bool.false_eq_true, if_false]
        set kids := conv.filter
          (fun c => (hget st c).inReplyToId == (hget st ref).id &&
            (hget st c).id != (hget st ref).id) with hkids
        by_cases hke : kids.isEmpty
        · simp only [hke, if_true]
          exact ⟨h, Nat.le_refl _⟩
        · simp only [hke, Bool.false_eq_true, if_false]
          have hfold : ∀ (ks : List Nat) (acc : List HTweet × List JStr × List Nat),
              HInv st0 acc.1 → (∀ x ∈ acc.2.2, st0.length ≤ x) →
              HInv st0 (ks.foldl (fun acc child =>
                  let cp := allocCopy acc.1 tmap (hget acc.1 child).id
                  let step := attachH conv tmap n cp.1 acc.2.1 cp.2
                  (step.1, step.2, acc.2.2 ++ [cp.2])) acc).1 ∧
              (∀ x ∈ (ks.foldl (fun acc child =>
                  let cp := allocCopy acc.1 tmap (hget acc.1 child).id
                  let step := attachH conv tmap n cp.1 acc.2.1 cp.2
                  (step.1, step.2, acc.2.2 ++ [cp.2])) acc).2.2, st0.length ≤ x) ∧
              acc.1.length ≤ (ks.foldl (fun acc child =>
                  let cp := allocCopy acc.1 tmap (hget acc.1 child).id
                  let step := attachH conv tmap n cp.1 acc.2.1 cp.2
                  (step.1, step.2, acc.2.2 ++ [cp.2])) acc).1.length := by
            intro ks
            induction ks with
            | nil => intro acc ha hx; exact ⟨ha, hx, Nat.le_refl _⟩
            | cons kd ks ihk =>
                intro acc ha hx
                simp only [List.foldl_cons]
                obtain ⟨hc1, hc2, hc3, hc4⟩ :=
                  allocCopy_inv ha tmap (hget acc.1 kd).id
                obtain ⟨hs1, hs2⟩ := ih (allocCopy acc.1 tmap (hget acc.1 kd).id).1
                  acc.2.1 (allocCopy acc.1 tmap (hget acc.1 kd).id).2 hc1
                  (by rw [hc2]; exact initSeg_length ha.1)
                have := ihk (((attachH conv tmap n
                    (allocCopy acc.1 tmap (hget acc.1 kd).id).1 acc.2.1
                    (allocCopy acc.1 tmap (hget acc.1 kd).id).2).1,
                  (attachH conv tmap n
                    (allocCopy acc.1 tmap (hget acc.1 kd).id).1 acc.2.1
                    (allocCopy acc.1 tmap (hget acc.1 kd).id).2).2,
                  acc.2.2 ++ [(allocCopy acc.1 tmap (hget acc.1 kd).id).2]))
                  hs1 (by
                    intro x hxm
                    rcases List.mem_append.mp hxm with hxa | hxb
                    · exact hx x hxa
                    · simp at hxb
                      rw [hxb, hc2]
                      exact initSeg_length ha.1)
                refine ⟨this.1, this.2.1, ?_⟩
                calc acc.1.length
                    ≤ (allocCopy acc.1 tmap (hget acc.1 kd).id).1.length := by
                      rw [hc4]; exact Nat.le_succ _
                  _ ≤ (attachH conv tmap n
                        (allocCopy acc.1 tmap (hget acc.1 kd).id).1 acc.2.1
                        (allocCopy acc.1 tmap (hget acc.1 kd).id).2).1.length := hs2
                  _ ≤ _ := this.2.2
          obtain ⟨hf1, hf2, hf3⟩ := hfold kids (st, (hget st ref).id :: pr, [])
            h (by intro x hx; cases hx)
          refine ⟨⟨initSeg_set ref _ hf1.1 href, freshOk_set hf1.2 ref _ _ hf2⟩, ?_⟩
          rw [List.length_set]
          exact hf3

theorem processConversationH_inv (st0 : List HTweet)
    (tmap : List (String × Nat)) (fuel : Nat) (st : List HTweet)
    (conv : List Nat) (h : HInv st0 st) :
    HInv st0 (processConversationH tmap fuel st conv).1 ∧
    (∀ r ∈ (processConversationH tmap fuel st conv).2, st0.length ≤ r) := by
  unfold processConversationH
  simp only
  set roots := conv.filter
    (fun r => isRootInH (conv.map (fun r => (hget st r).id)) (hget st r)) with hroots
  clear_value roots
  have hfold : ∀ (rs : List Nat) (acc : List HTweet × List JStr × List Nat),
      HInv st0 acc.1 → (∀ x ∈ acc.2.2, st0.length ≤ x) →
      HInv st0 (rs.foldl (fun acc root =>
          let cp := allocCopy acc.1 tmap (hget acc.1 root).id
          let step := attachH conv tmap fuel cp.1 acc.2.1 cp.2
          (step.1, step.2, acc.2.2 ++ [cp.2])) acc).1 ∧
      (∀ x ∈ (rs.foldl (fun acc root =>
          let cp := allocCopy acc.1 tmap (hget acc.1 root).id
          let step := attachH conv tmap fuel cp.1 acc.2.1 cp.2
          (step.1, step.2, acc.2.2 ++ [cp.2])) acc).2.2, st0.length ≤ x) := by
    intro rs
    induction rs with
    | nil => intro acc ha hx; exact ⟨ha, hx⟩
    | cons r rs ihr =>
        intro acc ha hx
        simp only [List.foldl_cons]
        obtain ⟨hc1, hc2, hc3, hc4⟩ := allocCopy_inv ha tmap (hget acc.1 r).id
        obtain ⟨hs1, hs2⟩ := attachH_inv st0 conv tmap fuel
          (allocCopy acc.1 tmap (hget acc.1 r).id).1 acc.2.1
          (allocCopy acc.1 tmap (hget acc.1 r).id).2 hc1
          (by rw [hc2]; exact initSeg_length ha.1)
        exact ihr _ hs1 (by
          intro x hxm
          rcases List.mem_append.mp hxm with hxa | hxb
          · exact hx x hxa
          · simp at hxb
            rw [hxb, hc2]
            exact initSeg_length ha.1)
  exact hfold roots (st, [], []) h (by intro x hx; cases hx)

theorem processOrphanH_inv (st0 : List HTweet) (input : List Nat)
    (tmap : List (String × Nat)) (st : List HTweet) (r : Nat)
    (h : HInv st0 st) :
    HInv st0 (processOrphanH input tmap st r).1 ∧
    (∀ x ∈ (processOrphanH input tmap st r).2, st0.length ≤ x) := by
  unfold processOrphanH
  simp only
  by_cases h1 : (!(truthyB (hget st r).isReply) ||
      !(truthyS (hget st r).inReplyToId)) = true
  · simp only [h1, if_true]
    obtain ⟨hc1, hc2, hc3, hc4⟩ := allocCopy_inv h tmap (hget st r).id
    exact ⟨hc1, by
      intro x hx
      simp at hx
      rw [hx, hc2]
      exact initSeg_length h.1⟩
  · simp only [h1, Bool.false_eq_true, if_false]
    cases input.find? (fun u => (hget st u).id == (hget st r).inReplyToId) with
    | none =>
        simp only
        obtain ⟨hc1, hc2, hc3, hc4⟩ := allocCopy_inv h tmap (hget st r).id
        exact ⟨hc1, by
          intro x hx
          simp at hx
          rw [hx, hc2]
          exact initSeg_length h.1⟩
    | some p =>
        simp only
        by_cases h2 : truthyS (hget st p).conversationId = true
        · simp only [h2, if_true]
          exact ⟨h, by intro x hx; cases hx⟩
        · simp only [h2, if_false, Bool.false_eq_true]
          obtain ⟨hc1, hc2, hc3, hc4⟩ := allocCopy_inv h tmap (hget st r).id
          exact ⟨hc1, by
            intro x hx
            simp at hx
            rw [hx, hc2]
            exact initSeg_length h.1⟩

theorem buildTweetMapH_inv (st0 : List HTweet) (input : List Nat) :
    HInv st0 (buildTweetMapH st0 input).1 := by
  unfold buildTweetMapH
  have hfold : ∀ (rs : List Nat) (acc : List HTweet × List (String × Nat)),
      HInv st0 acc.1 →
      HInv st0 (rs.foldl (fun acc r =>
          let o := hget acc.1 r
          if truthyS o.id then
            (acc.1 ++ [{ o with children := [] }],
             msetN acc.2 (o.id.getD "") acc.1.length)
          else acc) acc).1 := by
    intro rs
    induction rs with
    | nil => intro acc ha; exact ha
    | cons r rs ihr =>
        intro acc ha
        simp only [List.foldl_cons]
        by_cases ht : truthyS (hget acc.1 r).id = true
        · simp only [ht, if_true]
          exact ihr _ ⟨initSeg_trans ha.1 (initSeg_alloc _ _),
            freshOk_alloc ha.2 _ (by intro c hc; simp at hc)⟩
        · simp only [ht, if_false, Bool.false_eq_true]
          exact ihr _ ha
  exact hfold input (st0, []) (hInv_refl st0)

theorem organizeH_inv (st0 : List HTweet) (input : List Nat) :
    HInv st0 (organizeH st0 input).1 ∧
    (∀ r ∈ (organizeH st0 input).2, st0.length ≤ r) := by
  unfold organizeH
  simp only
  have hbuilt := buildTweetMapH_inv st0 input
  have hconvfold : ∀ (gs : List (String × List Nat))
      (acc : List HTweet × List Nat),
      HInv st0 acc.1 → (∀ x ∈ acc.2, st0.length ≤ x) →
      HInv st0 (gs.foldl (fun acc g =>
          let step := processConversationH (buildTweetMapH st0 input).2
            (input.length + 2) acc.1 g.2
          (step.1, acc.2 ++ step.2)) acc).1 ∧
      (∀ x ∈ (gs.foldl (fun acc g =>
          let step := processConversationH (buildTweetMapH st0 input).2
            (input.length + 2) acc.1 g.2
          (step.1, acc.2 ++ step.2)) acc).2, st0.length ≤ x) := by
    intro gs
    induction gs with
    | nil => intro acc ha hx; exact ⟨ha, hx⟩
    | cons g gs ihg =>
        intro acc ha hx
        simp only [List.foldl_cons]
        obtain ⟨hp1, hp2⟩ := processConversationH_inv st0
          (buildTweetMapH st0 input).2 (input.length + 2) acc.1 g.2 ha
        exact ihg _ hp1 (by
          intro x hxm
          rcases List.mem_append.mp hxm with hxa | hxb
          · exact hx x hxa
          · exact hp2 x hxb)
  have horphfold : ∀ (rs : List Nat) (acc : List HTweet × List Nat),
      HInv st0 acc.1 → (∀ x ∈ acc.2, st0.length ≤ x) →
      HInv st0 (rs.foldl (fun acc r =>
          let step := processOrphanH input (buildTweetMapH st0 input).2 acc.1 r
          (step.1, acc.2 ++ step.2)) acc).1 ∧
      (∀ x ∈ (rs.foldl (fun acc r =>
          let step := processOrphanH input (buildTweetMapH st0 input).2 acc.1 r
          (step.1, acc.2 ++ step.2)) acc).2, st0.length ≤ x) := by
    intro rs
    induction rs with
    | nil => intro acc ha hx; exact ⟨ha, hx⟩
    | cons r rs ihr =>
        intro acc ha hx
        simp only [List.foldl_cons]
        obtain ⟨hp1, hp2⟩ := processOrphanH_inv st0 input
          (buildTweetMapH st0 input).2 acc.1 r ha
        exact ihr _ hp1 (by
          intro x hxm
          rcases List.mem_append.mp hxm with hxa | hxb
          · exact hx x hxa
          · exact hp2 x hxb)
  have hconv := hconvfold (groupByConvH (buildTweetMapH st0 input).1 input).1
    ((buildTweetMapH st0 input).1, []) hbuilt (by intro x hx; cases hx)
  exact horphfold (groupByConvH (buildTweetMapH st0 input).1 input).2 _
    hconv.1 hconv.2

/-- C10: `organizeTweetsIntoThreads` never mutates its input objects
and returns only freshly allocated nodes.  In the heap embedding: the
final store extends the input store unchanged (every input object,
children field included, reads back identically), every returned root
reference points above the input watermark, and every fresh object
references only fresh children — so the whole returned forest is
disjoint from the input objects. -/
theorem c10_no_input_mutation (st0 : List HTweet) (input : List Nat) :
    (∀ r, r < st0.length → hget (organizeH st0 input).1 r = hget st0 r) ∧
    (∀ r ∈ (organizeH st0 input).2, st0.length ≤ r) ∧
    (∀ i, st0.length ≤ i →
      ∀ c ∈ (hget (organizeH st0 input).1 i).children, st0.length ≤ c) := by
  obtain ⟨⟨hseg, hfresh⟩, hroots⟩ := organizeH_inv st0 input
  exact ⟨fun r hr => initSeg_hget hseg r hr, hroots, hfresh⟩

/-- Witness for C10 at a one-object store. -/
theorem c10_no_input_mutation_witness :
    0 < [hEmpty].length ∧
    hget (organizeH [hEmpty] [0]).1 0 = hget [hEmpty] 0 :=
  ⟨by decide, (c10_no_input_mutation [hEmpty] [0]).1 0 (by decide)⟩

/-! ### Cleanliness of reply snapshots (claim C6) -/

@[simp] theorem setConv_repliedTo (t : Tweet) (c) :
    (t.setConv c).repliedTo = t.repliedTo := by
  cases t; rfl

@[simp] theorem setSource_repliedTo (t : Tweet) (s) :
    (t.setSource s).repliedTo = t.repliedTo := by
  cases t; rfl

theorem clean_is_clean (raw : RawTweet) :
    CleanTweet (createCleanRepliedToTweet raw) :=
  ⟨rfl, rfl, rfl, rfl, rfl, rfl, rfl, rfl⟩

theorem processRawTweet_repliedTo (t : RawTweet) (p : Tweet)
    (h : processRawTweet t = some p) : p.repliedTo = none := by
  unfold processRawTweet at h
  by_cases ht : truthyS t.id
  · simp only [ht, Bool.not_true, Bool.false_eq_true, if_false] at h
    injection h with h
    rw [← h]
    rfl
  · simp only [Bool.not_eq_true'] at ht
    simp [ht] at h

theorem resolveRepliedTo_clean (tmap : List (String × RawTweet))
    (raws : List RawTweet) (t : RawTweet) :
    ∀ s, resolveRepliedTo tmap raws t = some s → CleanTweet s := by
  intro s h
  unfold resolveRepliedTo at h
  simp only at h
  repeat' split at h
  all_goals
    first
      | exact clean_is_clean _
      | (obtain ⟨raw, _, hra⟩ := Option.map_eq_some'.mp h
         exact hra ▸ clean_is_clean _)
      | cases h
  all_goals exact clean_is_clean _

theorem processMainTweet_repliedTo (tmap raws t) :
    (processMainTweet tmap raws t).repliedTo = resolveRepliedTo tmap raws t := rfl

theorem backfillStep_fst_repliedTo (f src ms t) (tw : Tweet) :
    (backfillStep f src ms t).1 = some tw → tw.repliedTo = none := by
  unfold backfillStep
  cases hp : processRawTweet t with
  | none => intro h; cases h
  | some p =>
      have hpr : p.repliedTo = none := processRawTweet_repliedTo t p hp
      cases ms.findIdx? (fun m => f m t.id) with
      | none =>
          intro h
          injection h with h
          rw [← h]
          simp [hpr]
      | some i =>
          simp only
          split_ifs with h1 h2 <;>
            (intro h; injection h with h; rw [← h]; simp [hpr])

theorem backfillStep_snd_mem (f src ms t) :
    ∀ u ∈ (backfillStep f src ms t).2, ∃ m ∈ ms, u.repliedTo = m.repliedTo := by
  unfold backfillStep
  cases processRawTweet t with
  | none => exact fun u hu => ⟨u, hu, rfl⟩
  | some p =>
      cases hidx : ms.findIdx? (fun m => f m t.id) with
      | none => exact fun u hu => ⟨u, hu, rfl⟩
      | some i =>
          simp only
          split_ifs with h1 h2
          · exact fun u hu => ⟨u, hu, rfl⟩
          · intro u hu
            rcases List.mem_or_eq_of_mem_set hu with hm | he
            · exact ⟨u, hm, rfl⟩
            · have hlt : i < ms.length :=
                (List.findIdx?_eq_some_iff_findIdx_eq.mp hidx).1
              have hr : ms.getD i emptyTweet ∈ ms := by
                rw [List.getD_eq_getElem?_getD, List.getElem?_eq_getElem hlt]
                exact List.getElem_mem hlt
              exact ⟨ms.getD i emptyTweet, hr, by rw [he]; simp⟩
          · exact fun u hu => ⟨u, hu, rfl⟩

theorem processBatch_fold_repliedTo (f src) (batch : List RawTweet) :
    ∀ (out0 : List Tweet) (ms0 : List Tweet),
      (∀ u ∈ (batch.foldl
        (fun acc t =>
          let (out, ms) := acc
          let (p, ms') := backfillStep f src ms t
          match p with
          | some tw => (out ++ [tw], ms')
          | none => (out, ms')) (out0, ms0)).1, u ∈ out0 ∨ u.repliedTo = none) ∧
      (∀ u ∈ (batch.foldl
        (fun acc t =>
          let (out, ms) := acc
          let (p, ms') := backfillStep f src ms t
          match p with
          | some tw => (out ++ [tw], ms')
          | none => (out, ms')) (out0, ms0)).2,
        ∃ m ∈ ms0, u.repliedTo = m.repliedTo) := by
  induction batch with
  | nil => exact fun out0 ms0 => ⟨fun u hu => Or.inl hu, fun u hu => ⟨u, hu, rfl⟩⟩
  | cons t ts ih =>
      intro out0 ms0
      simp only [List.foldl_cons]
      cases hb : backfillStep f src ms0 t with
      | mk p ms' =>
          have hms' : ∀ u ∈ ms', ∃ m ∈ ms0, u.repliedTo = m.repliedTo := by
            intro u hu
            have := backfillStep_snd_mem f src ms0 t u (by rw [hb]; exact hu)
            exact this
          cases p with
          | none =>
              simp only
              refine ⟨fun u hu => (ih out0 ms').1 u hu, ?_⟩
              intro u hu
              obtain ⟨m, hm, he⟩ := (ih out0 ms').2 u hu
              obtain ⟨m0, hm0, he0⟩ := hms' m hm
              exact ⟨m0, hm0, by rw [he, he0]⟩
          | some tw =>
              simp only
              have htw : tw.repliedTo = none :=
                backfillStep_fst_repliedTo f src ms0 t tw (by rw [hb])
              refine ⟨?_, ?_⟩
              · intro u hu
                rcases (ih (out0 ++ [tw]) ms').1 u hu with hin | hnone
                · rcases List.mem_append.mp hin with h0 | h1
                  · exact Or.inl h0
                  · simp at h1
                    exact Or.inr (h1 ▸ htw)
                · exact Or.inr hnone
              · intro u hu
                obtain ⟨m, hm, he⟩ := (ih (out0 ++ [tw]) ms').2 u hu
                obtain ⟨m0, hm0, he0⟩ := hms' m hm
                exact ⟨m0, hm0, by rw [he, he0]⟩

theorem processBatch_fst_repliedTo (f src ms batch) :
    ∀ u ∈ (processBatch f src ms batch).1, u.repliedTo = none := by
  intro u hu
  rcases (processBatch_fold_repliedTo f src batch [] ms).1 u hu with h0 | h1
  · cases h0
  · exact h1

theorem processBatch_snd_repliedTo (f src ms batch) :
    ∀ u ∈ (processBatch f src ms batch).2,
      ∃ m ∈ ms, u.repliedTo = m.repliedTo := by
  intro u hu
  exact (processBatch_fold_repliedTo f src batch [] ms).2 u hu

/-- Every record of the merged canonical set has either no repliedTo
or a clean snapshot. -/
theorem fetchPipeline_repliedTo_clean (raws incl repl : List RawTweet) :
    ∀ t ∈ fetchPipeline raws incl repl, ∀ s, t.repliedTo = some s →
      CleanTweet s := by
  intro t ht s hs
  unfold fetchPipeline at ht
  simp only [List.mem_append] at ht
  rcases ht with (h2 | hincl) | hrepl
  · obtain ⟨m1, hm1, he1⟩ := processBatch_snd_repliedTo _ _ _ _ t h2
    obtain ⟨m0, hm0, he0⟩ := processBatch_snd_repliedTo _ _ _ _ m1 hm1
    obtain ⟨raw, hraw, hmr⟩ := List.mem_map.mp hm0
    rw [he1, he0, ← hmr, processMainTweet_repliedTo] at hs
    exact resolveRepliedTo_clean _ _ raw s hs
  · rw [processBatch_fst_repliedTo _ _ _ _ t hincl] at hs
    cases hs
  · rw [processBatch_fst_repliedTo _ _ _ _ t hrepl] at hs
    cases hs

/-! ### Node predicates over the built forest -/

theorem nodesT_def (t : Tweet) : nodesT t = t :: nodesCh t.children := by
  cases t; rfl

theorem nodesT_of_children_nil (t : Tweet) (h : t.children = some []) :
    nodesT t = [t] := by
  rw [nodesT_def, h]
  rfl

theorem nodesList_append (a b : List Tweet) :
    nodesList (a ++ b) = nodesList a ++ nodesList b := by
  induction a with
  | nil => rfl
  | cons t ts ih =>
      show nodesT t ++ nodesList (ts ++ b) = nodesT t ++ nodesList ts ++ nodesList b
      rw [ih, List.append_assoc]

theorem getBangT_mem_or_empty (tmap : List (String × Tweet)) (k : JStr) :
    (∃ p ∈ tmap, getBangT tmap k = p.2) ∨ getBangT tmap k = emptyTweet := by
  unfold getBangT
  cases hm : mgetT tmap k with
  | none => exact Or.inr rfl
  | some v =>
      left
      unfold mgetT at hm
      cases k with
      | none => cases hm
      | some s =>
          obtain ⟨p, hp, hv⟩ := Option.map_eq_some'.mp hm
          exact ⟨p, List.mem_of_find?_eq_some hp, hv.symm⟩

/-- Any property preserved by children replacement and holding on all
map values (and the undefined spread) holds on every node of every
tree the recursive attachment builds. -/
theorem attachFuel_allNodes (conv : List Tweet) (tmap : List (String × Tweet))
    (Q : Tweet → Prop)
    (hQset : ∀ t ch, Q t → Q (t.setChildren ch))
    (hQmap : ∀ p ∈ tmap, Q p.2) (hQemp : Q emptyTweet) :
    ∀ fuel pr node, Q node → node.children = some [] →
      ∀ d ∈ nodesT (attachFuel conv tmap fuel pr node).1, Q d := by
  intro fuel
  induction fuel with
  | zero =>
      intro pr node hq hch d hd
      simp only [attachFuel] at hd
      rw [nodesT_of_children_nil node hch] at hd
      simp at hd
      exact hd ▸ hq
  | succ n ih =>
      intro pr node hq hch d hd
      rw [attachFuel] at hd
      by_cases hg : pr.contains node.id
      · simp only [hg, if_true] at hd
        rw [nodesT_of_children_nil node hch] at hd
        simp at hd
        exact hd ▸ hq
      · simp only [hg, Bool.false_eq_true, if_false] at hd
        by_cases hke : (conv.filter
            (fun t => t.inReplyToId == node.id && t.id != node.id)).isEmpty
        · simp only [hke, if_true] at hd
          rw [nodesT_of_children_nil node hch] at hd
          simp at hd
          exact hd ▸ hq
        · simp only [hke, Bool.false_eq_true, if_false] at hd
          have hfold : ∀ (ks : List Tweet) (acc : List Tweet × List JStr),
              (∀ x ∈ nodesList acc.1, Q x) →
              ∀ x ∈ nodesList (ks.foldl
                (fun acc child =>
                  let copy := (getBangT tmap child.id).setChildren (some [])
                  let step := attachFuel conv tmap n acc.2 copy
                  (acc.1 ++ [step.1], step.2)) acc).1, Q x := by
            intro ks
            induction ks with
            | nil => intro acc ha x hx; exact ha x hx
            | cons kd ks ihk =>
                intro acc ha x hx
                simp only [List.foldl_cons] at hx
                refine ihk _ ?_ x hx
                intro y hy
                rw [nodesList_append] at hy
                rcases List.mem_append.mp hy with hy1 | hy2
                · exact ha y hy1
                · have hqc : Q ((getBangT tmap kd.id).setChildren (some [])) := by
                    rcases getBangT_mem_or_empty tmap kd.id with ⟨p, hp, he⟩ | he
                    · rw [he]; exact hQset _ _ (hQmap p hp)
                    · rw [he]; exact hQset _ _ hQemp
                  have := ih acc.2 ((getBangT tmap kd.id).setChildren (some []))
                    hqc (by simp) y (by simpa [nodesList] using hy2)
                  exact this
          rw [nodesT_def, setChildren_children] at hd
          rcases List.mem_cons.mp hd with h1 | h2
          · exact h1 ▸ hQset _ _ hq
          · exact hfold _ ([], node.id :: pr) (fun x hx => by cases hx) d h2

theorem buildTweetMap_fold_values (l : List Tweet) (P : Tweet → Prop)
    (hl : ∀ t ∈ l, P (t.setChildren (some []))) :
    ∀ m, (∀ p ∈ m, P p.2) →
      ∀ p ∈ l.foldl
        (fun m t =>
          if truthyS t.id then msetT m (t.id.getD "") (t.setChildren (some []))
          else m) m, P p.2 := by
  induction l with
  | nil => intro m hm p hp; exact hm p hp
  | cons u us ih =>
      intro m hm p hp
      simp only [List.foldl_cons] at hp
      refine ih (fun t ht => hl t (by simp [ht])) _ ?_ p hp
      intro q hq
      by_cases hu : truthyS u.id
      · simp only [hu, if_true, msetT] at hq
        rcases List.mem_cons.mp hq with rfl | hq2
        · exact hl u (by simp)
        · exact hm q hq2
      · simp only [hu, Bool.false_eq_true, if_false] at hq
        exact hm q hq

theorem buildTweetMap_values (ts : List Tweet) (P : Tweet → Prop)
    (hts : ∀ t ∈ ts, P (t.setChildren (some []))) :
    ∀ p ∈ buildTweetMap ts, P p.2 := by
  exact buildTweetMap_fold_values ts P hts [] (fun p hp => by cases hp)

theorem processOrphan_mem (all : List Tweet) (tmap) (t : Tweet) :
    ∀ x ∈ processOrphan all tmap t,
      x = (getBangT tmap t.id).setChildren (some []) := by
  unfold processOrphan
  by_cases h1 : (!(truthyB t.isReply) || !(truthyS t.inReplyToId)) = true
  · simp [h1]
  · simp only [h1, Bool.false_eq_true, if_false]
    cases all.find? (fun u => u.id == t.inReplyToId) with
    | none => simp
    | some parent =>
        by_cases h2 : truthyS parent.conversationId = true
        · simp [h2]
        · simp [h2]

theorem processConversation_allNodes (tmap : List (String × Tweet))
    (fuel : Nat) (conv : List Tweet) (Q : Tweet → Prop)
    (hQset : ∀ t ch, Q t → Q (t.setChildren ch))
    (hQmap : ∀ p ∈ tmap, Q p.2) (hQemp : Q emptyTweet) :
    ∀ x ∈ processConversation tmap fuel conv, ∀ d ∈ nodesT x, Q d := by
  unfold processConversation
  have hfold : ∀ (rs : List Tweet) (acc : List Tweet × List JStr),
      (∀ x ∈ acc.1, ∀ d ∈ nodesT x, Q d) →
      ∀ x ∈ (rs.foldl (fun acc root =>
          let rootCopy := (getBangT tmap root.id).setChildren (some [])
          let step := attachFuel conv tmap fuel acc.2 rootCopy
          (acc.1 ++ [step.1], step.2)) acc).1, ∀ d ∈ nodesT x, Q d := by
    intro rs
    induction rs with
    | nil => intro acc ha; exact ha
    | cons r rs ihr =>
        intro acc ha
        simp only [List.foldl_cons]
        refine ihr _ ?_
        intro x hx d hd
        rcases List.mem_append.mp hx with hx1 | hx2
        · exact ha x hx1 d hd
        · simp at hx2
          subst hx2
          have hq : Q ((getBangT tmap r.id).setChildren (some [])) := by
            rcases getBangT_mem_or_empty tmap r.id with ⟨p, hp, he⟩ | he
            · rw [he]; exact hQset _ _ (hQmap p hp)
            · rw [he]; exact hQset _ _ hQemp
          exact attachFuel_allNodes conv tmap Q hQset hQmap hQemp fuel acc.2 _
            hq (by simp) d hd
  exact hfold _ ([], []) (fun x hx => by cases hx)

/-- Any property preserved by children replacement, holding on the
undefined spread and on every input record, holds on every node of the
forest the thread builder returns. -/
theorem organize_allNodes (ts : List Tweet) (Q : Tweet → Prop)
    (hQset : ∀ t ch, Q t → Q (t.setChildren ch))
    (hQemp : Q emptyTweet) (hin : ∀ t ∈ ts, Q t) :
    ∀ root ∈ organizeTweetsIntoThreads ts, ∀ d ∈ nodesT root, Q d := by
  have hQmap : ∀ p ∈ buildTweetMap ts, Q p.2 :=
    buildTweetMap_values ts (fun v => Q v)
      (fun t ht => hQset _ _ (hin t ht))
  unfold organizeTweetsIntoThreads organizeFuel
  have hconvfold : ∀ (gs : List (String × List Tweet)) (acc : List Tweet),
      (∀ x ∈ acc, ∀ d ∈ nodesT x, Q d) →
      ∀ x ∈ gs.foldl (fun acc g =>
          acc ++ processConversation (buildTweetMap ts) (ts.length + 2) g.2) acc,
        ∀ d ∈ nodesT x, Q d := by
    intro gs
    induction gs with
    | nil => intro acc ha; exact ha
    | cons g gs ihg =>
        intro acc ha
        simp only [List.foldl_cons]
        refine ihg _ ?_
        intro x hx
        rcases List.mem_append.mp hx with hx1 | hx2
        · exact ha x hx1
        · exact processConversation_allNodes _ _ _ Q hQset hQmap hQemp x hx2
  have horphfold : ∀ (os : List Tweet) (acc : List Tweet),
      (∀ x ∈ acc, ∀ d ∈ nodesT x, Q d) →
      ∀ x ∈ os.foldl (fun acc t =>
          acc ++ processOrphan ts (buildTweetMap ts) t) acc,
        ∀ d ∈ nodesT x, Q d := by
    intro os
    induction os with
    | nil => intro acc ha; exact ha
    | cons o os iho =>
        intro acc ha
        simp only [List.foldl_cons]
        refine iho _ ?_
        intro x hx
        rcases List.mem_append.mp hx with hx1 | hx2
        · exact ha x hx1
        · intro d hd
          rw [processOrphan_mem ts (buildTweetMap ts) o x hx2] at hd
          rw [nodesT_of_children_nil _ (by simp)] at hd
          simp at hd
          subst hd
          rcases getBangT_mem_or_empty (buildTweetMap ts) o.id with ⟨p, hp, he⟩ | he
          · rw [he]; exact hQset _ _ (hQmap p hp)
          · rw [he]; exact hQset _ _ hQemp
  intro root hroot
  exact horphfold _ _ (hconvfold _ [] (fun x hx => by cases hx)) root hroot

/-- C6: the snapshot entry point strips repliedTo, children and every
reply-linkage field, and consequently every repliedTo value in the
merged set and in the built forest is such a clean snapshot — snapshot
depth is exactly one, never recursive. -/
theorem c6_snapshot_clean :
    (∀ raw, CleanTweet (createCleanRepliedToTweet raw)) ∧
    (∀ raws incl repl, ∀ t ∈ fetchPipeline raws incl repl, ∀ s,
        t.repliedTo = some s → CleanTweet s) ∧
    (∀ raws incl repl,
        ∀ root ∈ organizeTweetsIntoThreads (fetchPipeline raws incl repl),
        ∀ d ∈ nodesT root, ∀ s, d.repliedTo = some s → CleanTweet s) := by
  refine ⟨clean_is_clean, fetchPipeline_repliedTo_clean, ?_⟩
  intro raws incl repl root hroot d hd s hs
  exact organize_allNodes (fetchPipeline raws incl repl)
    (fun t => ∀ s, t.repliedTo = some s → CleanTweet s)
    (fun t ch hq s2 hsx => hq s2 (by rw [← setChildren_repliedTo t ch]; exact hsx))
    (fun s2 hsx => by cases hsx)
    (fetchPipeline_repliedTo_clean raws incl repl)
    root hroot d hd s hs

/-- Witness for C6 at the backfill scenario: the primary record really
carries a repliedTo snapshot there, and it is clean. -/
theorem c6_snapshot_clean_witness :
    (((fetchPipeline [rawB] [rawA] []).getD 0 emptyTweet)
        ∈ fetchPipeline [rawB] [rawA] [] ∧
     ((fetchPipeline [rawB] [rawA] []).getD 0 emptyTweet).repliedTo =
        some (createCleanRepliedToTweet rawA)) ∧
    CleanTweet (createCleanRepliedToTweet rawA) := by
  have hmem : ((fetchPipeline [rawB] [rawA] []).getD 0 emptyTweet)
      ∈ fetchPipeline [rawB] [rawA] [] := by
    rw [List.getD_eq_getElem?_getD,
      List.getElem?_eq_getElem (by decide : 0 < (fetchPipeline [rawB] [rawA] []).length)]
    exact List.getElem_mem _
  exact ⟨⟨hmem, rfl⟩,
    c6_snapshot_clean.2.1 [rawB] [rawA] [] _ hmem _ rfl⟩

/-! ### Termination and cycle safety of the thread builder (claim C5) -/

theorem attachFuel_shape (conv : List Tweet) (tmap) (fuel : Nat)
    (pr : List JStr) (node : Tweet) :
    (attachFuel conv tmap fuel pr node).1 = node ∨
    ∃ ch, (attachFuel conv tmap fuel pr node).1 = node.setChildren (some ch) := by
  cases fuel with
  | zero => exact Or.inl rfl
  | succ n =>
      rw [attachFuel]
      by_cases hg : pr.contains node.id
      · simp only [hg, if_true]
        exact Or.inl trivial
      · simp only [hg, Bool.false_eq_true, if_false]
        by_cases hke : (conv.filter
            (fun t => t.inReplyToId == node.id && t.id != node.id)).isEmpty
        · simp only [hke, if_true]
          exact Or.inl trivial
        · simp only [hke, Bool.false_eq_true, if_false]
          exact Or.inr ⟨_, rfl⟩

mutual

theorem sizeOf_nodesT : ∀ (t : Tweet), ∀ d ∈ nodesT t, sizeOf d ≤ sizeOf t
  | .mk a b c r e f g hh i j ch src => by
      intro d hd
      have hd2 : d ∈ (Tweet.mk a b c r e f g hh i j ch src) :: nodesCh ch := hd
      rcases List.mem_cons.mp hd2 with rfl | h2
      · exact Nat.le_refl _
      · have hlt := sizeOf_nodesCh ch d h2
        have : sizeOf (Tweet.mk a b c r e f g hh i j ch src) =
            1 + sizeOf a + sizeOf b + sizeOf c + sizeOf r + sizeOf e +
            sizeOf f + sizeOf g + sizeOf hh + sizeOf i + sizeOf j +
            sizeOf ch + sizeOf src := by
          simp
        omega

theorem sizeOf_nodesCh : ∀ (ch : Option (List Tweet)), ∀ d ∈ nodesCh ch,
    sizeOf d < sizeOf ch
  | none => by intro d hd; cases hd
  | some l => by
      intro d hd
      have hle := sizeOf_nodesList l d hd
      have : sizeOf (some l : Option (List Tweet)) = 1 + sizeOf l := by simp
      omega

theorem sizeOf_nodesList : ∀ (l : List Tweet), ∀ d ∈ nodesList l,
    sizeOf d ≤ sizeOf l
  | [] => by intro d hd; cases hd
  | t :: ts => by
      intro d hd
      have hd2 : d ∈ nodesT t ++ nodesList ts := hd
      have hsz : sizeOf (t :: ts) = 1 + sizeOf t + sizeOf ts := by simp
      rcases List.mem_append.mp hd2 with h1 | h2
      · have := sizeOf_nodesT t d h1
        omega
      · have := sizeOf_nodesList ts d h2
        omega

end

theorem strictDesc_sizeOf (t : Tweet) : ∀ d ∈ strictDesc t, sizeOf d < sizeOf t := by
  cases t with
  | mk a b c r e f g hh i j ch src =>
      intro d hd
      have h2 : d ∈ nodesCh ch := hd
      have hlt := sizeOf_nodesCh ch d h2
      have : sizeOf (Tweet.mk a b c r e f g hh i j ch src) =
          1 + sizeOf a + sizeOf b + sizeOf c + sizeOf r + sizeOf e +
          sizeOf f + sizeOf g + sizeOf hh + sizeOf i + sizeOf j +
          sizeOf ch + sizeOf src := by
        simp
      omega

theorem strictDesc_ne (t d : Tweet) (hd : d ∈ strictDesc t) : d ≠ t := by
  intro he
  have := strictDesc_sizeOf t d hd
  rw [he] at this
  exact Nat.lt_irrefl _ this

theorem attachFuel_pr_subset (conv : List Tweet) (tmap : List (String × Tweet)) :
    ∀ fuel pr node x, x ∈ pr → x ∈ (attachFuel conv tmap fuel pr node).2 := by
  intro fuel
  induction fuel with
  | zero => intro pr node x hx; exact hx
  | succ n ih =>
      intro pr node x hx
      rw [attachFuel]
      by_cases hg : pr.contains node.id
      · simp only [hg, if_true]
        exact hx
      · simp only [hg, Bool.false_eq_true, if_false]
        by_cases hke : (conv.filter
            (fun t => t.inReplyToId == node.id && t.id != node.id)).isEmpty
        · simp only [hke, if_true]
          exact List.mem_cons_of_mem _ hx
        · simp only [hke, Bool.false_eq_true, if_false]
          have hfold : ∀ (ks : List Tweet) (acc : List Tweet × List JStr),
              x ∈ acc.2 → x ∈ (ks.foldl (fun acc child =>
                let copy := (getBangT tmap child.id).setChildren (some [])
                let step := attachFuel conv tmap n acc.2 copy
                (acc.1 ++ [step.1], step.2)) acc).2 := by
            intro ks
            induction ks with
            | nil => intro acc hacc; exact hacc
            | cons kd ks ihk =>
                intro acc hacc
                simp only [List.foldl_cons]
                exact ihk _ (ih acc.2 _ x hacc)
          exact hfold _ ([], node.id :: pr) (List.mem_cons_of_mem _ hx)

theorem measureP_mono (tmap : List (String × Tweet)) (pr pr' : List JStr)
    (h : ∀ x ∈ pr, x ∈ pr') : measureP tmap pr' ≤ measureP tmap pr := by
  apply Finset.card_le_card
  intro i hi
  rw [Finset.mem_filter] at hi ⊢
  exact ⟨hi.1, fun hmem => hi.2 (h i hmem)⟩

theorem measureP_lt (tmap : List (String × Tweet)) (pr : List JStr) (a : JStr)
    (ha : a ∈ idUniverse tmap) (hnp : a ∉ pr) :
    measureP tmap (a :: pr) < measureP tmap pr := by
  have hsub : (idUniverse tmap).filter (fun i => i ∉ a :: pr) ⊆
      (idUniverse tmap).filter (fun i => i ∉ pr) := by
    intro i hi
    rw [Finset.mem_filter] at hi ⊢
    exact ⟨hi.1, fun hmem => hi.2 (List.mem_cons_of_mem _ hmem)⟩
  apply Finset.card_lt_card
  refine (Finset.ssubset_iff_of_subset hsub).mpr
    ⟨a, Finset.mem_filter.mpr ⟨ha, hnp⟩, ?_⟩
  intro hmem
  exact (Finset.mem_filter.mp hmem).2 (List.mem_cons_self a pr)

theorem measureP_le (tmap : List (String × Tweet)) (pr : List JStr) :
    measureP tmap pr ≤ 1 + tmap.length := by
  calc measureP tmap pr ≤ (idUniverse tmap).card := Finset.card_filter_le _ _
    _ ≤ ((tmap.map (fun p => (some p.1 : JStr))).toFinset).card + 1 :=
        Finset.card_insert_le _ _
    _ ≤ (tmap.map (fun p => (some p.1 : JStr))).length + 1 :=
        Nat.add_le_add_right (List.toFinset_card_le _) 1
    _ = tmap.length + 1 := by simp
    _ = 1 + tmap.length := Nat.add_comm _ _

theorem buildTweetMap_keys (ts : List Tweet) : TMapOk (buildTweetMap ts) := by
  suffices h : ∀ (l : List Tweet) (m : List (String × Tweet)), TMapOk m →
      TMapOk (l.foldl
        (fun m t =>
          if truthyS t.id then msetT m (t.id.getD "") (t.setChildren (some []))
          else m) m) from
    h ts [] (fun p hp => by cases hp)
  intro l
  induction l with
  | nil => intro m hm; exact hm
  | cons u us ih =>
      intro m hm
      simp only [List.foldl_cons]
      refine ih _ ?_
      by_cases hu : truthyS u.id
      · simp only [hu, if_true, msetT]
        intro p hp
        rcases List.mem_cons.mp hp with rfl | h2
        · show (u.setChildren (some [])).id = some (u.id.getD "")
          rw [setChildren_id]
          cases hiu : u.id with
          | none => rw [hiu] at hu; simp [truthyS] at hu
          | some x => rfl
        · exact hm p h2
      · simp only [hu, Bool.false_eq_true, if_false]
        exact hm

theorem getBangT_id_mem (tmap : List (String × Tweet)) (hok : TMapOk tmap)
    (k : JStr) : (getBangT tmap k).id ∈ idUniverse tmap := by
  rcases getBangT_mem_or_empty tmap k with ⟨p, hp, he⟩ | he
  · rw [he, hok p hp]
    unfold idUniverse
    apply Finset.mem_insert_of_mem
    rw [List.mem_toFinset]
    exact List.mem_map.mpr ⟨p, hp, rfl⟩
  · rw [he]
    exact Finset.mem_insert_self _ _

/-- The recursion of `attachChildren` stabilizes: any two fuel values
strictly above the measure of the processed set give the same result.
This is the formal content of termination — the recursion never needs
more steps than there are distinct reachable ids. -/
theorem attachFuel_stable (conv : List Tweet) (tmap : List (String × Tweet))
    (hok : TMapOk tmap) :
    ∀ f g pr node, node.id ∈ idUniverse tmap →
      measureP tmap pr < f → measureP tmap pr < g →
      attachFuel conv tmap f pr node = attachFuel conv tmap g pr node := by
  intro f
  induction f with
  | zero => intro g pr node _ hf _; exact absurd hf (Nat.not_lt_zero _)
  | succ n ih =>
      intro g pr node hU hf hg
      cases g with
      | zero => exact absurd hg (Nat.not_lt_zero _)
      | succ m =>
          rw [attachFuel, attachFuel]
          by_cases hgd : pr.contains node.id
          · simp only [hgd, if_true]
          · simp only [hgd, Bool.false_eq_true, if_false]
            by_cases hke : (conv.filter
                (fun t => t.inReplyToId == node.id && t.id != node.id)).isEmpty
            · simp only [hke, if_true]
            · simp only [hke, Bool.false_eq_true, if_false]
              have hnp : node.id ∉ pr := by
                intro hmem
                rw [Bool.not_eq_true, List.contains_eq_any_beq,
                  List.any_eq_false] at hgd
                exact hgd _ hmem (by simp)
              have hdec := measureP_lt tmap pr node.id hU hnp
              have hfold : ∀ (ks : List Tweet) (acc : List Tweet × List JStr),
                  (∀ x ∈ (node.id :: pr), x ∈ acc.2) →
                  ks.foldl (fun acc child =>
                    let copy := (getBangT tmap child.id).setChildren (some [])
                    let step := attachFuel conv tmap n acc.2 copy
                    (acc.1 ++ [step.1], step.2)) acc =
                  ks.foldl (fun acc child =>
                    let copy := (getBangT tmap child.id).setChildren (some [])
                    let step := attachFuel conv tmap m acc.2 copy
                    (acc.1 ++ [step.1], step.2)) acc := by
                intro ks
                induction ks with
                | nil => intro acc _; rfl
                | cons kd ks ihk =>
                    intro acc hacc
                    simp only [List.foldl_cons]
                    have hmeas : measureP tmap acc.2 ≤ measureP tmap (node.id :: pr) :=
                      measureP_mono tmap _ _ hacc
                    have hUc : ((getBangT tmap kd.id).setChildren (some [])).id
                        ∈ idUniverse tmap := by
                      rw [setChildren_id]
                      exact getBangT_id_mem tmap hok kd.id
                    rw [ih m acc.2 _ hUc (by omega) (by omega)]
                    refine ihk _ ?_
                    intro x hx
                    exact attachFuel_pr_subset conv tmap m acc.2 _ x (hacc x hx)
              rw [hfold _ ([], node.id :: pr) (fun x hx => hx)]

theorem processConversation_stable (tmap : List (String × Tweet))
    (hok : TMapOk tmap) (conv : List Tweet) (f g : Nat)
    (hf : 1 + tmap.length < f) (hg : 1 + tmap.length < g) :
    processConversation tmap f conv = processConversation tmap g conv := by
  unfold processConversation
  simp only
  have h : ∀ (rs : List Tweet) (acc : List Tweet × List JStr),
      rs.foldl (fun acc root =>
        let rootCopy := (getBangT tmap root.id).setChildren (some [])
        let step := attachFuel conv tmap f acc.2 rootCopy
        (acc.1 ++ [step.1], step.2)) acc =
      rs.foldl (fun acc root =>
        let rootCopy := (getBangT tmap root.id).setChildren (some [])
        let step := attachFuel conv tmap g acc.2 rootCopy
        (acc.1 ++ [step.1], step.2)) acc := by
    intro rs
    induction rs with
    | nil => intro acc; rfl
    | cons r rs ihr =>
        intro acc
        simp only [List.foldl_cons]
        have hU : ((getBangT tmap r.id).setChildren (some [])).id
            ∈ idUniverse tmap := by
          rw [setChildren_id]
          exact getBangT_id_mem tmap hok r.id
        have hb := measureP_le tmap acc.2
        rw [attachFuel_stable conv tmap hok f g acc.2 _ hU (by omega) (by omega)]
        exact ihr _
  rw [h]

theorem buildTweetMap_length (ts : List Tweet) :
    (buildTweetMap ts).length ≤ ts.length := by
  suffices h : ∀ (l : List Tweet) (m : List (String × Tweet)),
      (l.foldl
        (fun m t =>
          if truthyS t.id then msetT m (t.id.getD "") (t.setChildren (some []))
          else m) m).length ≤ m.length + l.length by
    have := h ts []
    simpa using this
  intro l
  induction l with
  | nil => intro m; simp
  | cons u us ih =>
      intro m
      simp only [List.foldl_cons]
      by_cases hu : truthyS u.id
      · simp only [hu, if_true]
        have := ih (msetT m (u.id.getD "") (u.setChildren (some [])))
        simp only [msetT, List.length_cons] at this ⊢
        omega
      · simp only [hu, Bool.false_eq_true, if_false]
        have := ih m
        simp only [List.length_cons]
        omega

/-- Fuel past the input length plus two never changes the result:
`organizeTweetsIntoThreads` is the stable value of the recursion. -/
theorem organizeFuel_stable (ts : List Tweet) (fuel : Nat)
    (h : ts.length + 2 ≤ fuel) :
    organizeFuel fuel ts = organizeTweetsIntoThreads ts := by
  unfold organizeTweetsIntoThreads organizeFuel
  have hok := buildTweetMap_keys ts
  have hlen := buildTweetMap_length ts
  have hgfold : ∀ (gs : List (String × List Tweet)) (acc : List Tweet),
      gs.foldl (fun acc g =>
        acc ++ processConversation (buildTweetMap ts) fuel g.2) acc =
      gs.foldl (fun acc g =>
        acc ++ processConversation (buildTweetMap ts) (ts.length + 2) g.2) acc := by
    intro gs
    induction gs with
    | nil => intro acc; rfl
    | cons g gs ihg =>
        intro acc
        simp only [List.foldl_cons]
        rw [processConversation_stable _ hok _ fuel (ts.length + 2)
          (by omega) (by omega)]
        exact ihg _
  show (groupByConv ts).2.foldl
      (fun acc t => acc ++ processOrphan ts (buildTweetMap ts) t)
      ((groupByConv ts).1.foldl
        (fun acc g => acc ++ processConversation (buildTweetMap ts) fuel g.2) []) =
    (groupByConv ts).2.foldl
      (fun acc t => acc ++ processOrphan ts (buildTweetMap ts) t)
      ((groupByConv ts).1.foldl
        (fun acc g =>
          acc ++ processConversation (buildTweetMap ts) (ts.length + 2) g.2) [])
  rw [hgfold]

/-- C5 (amended): tree construction always terminates — fuel past the
input length plus two is never consumed, so the recursion needs only
boundedly many steps and, the embedding being a total function, raises
nothing; no node of the output forest is its own strict descendant;
and in the cyclic two-record scenario (a replies to b, b replies to a,
one conversation) the builder returns the empty forest, so neither
node is duplicated or infinitely nested.  (The further conjunct of the
original claim — that no node is ever attached more than once — is
false; see the counterexample.) -/
theorem c5_termination_acyclic :
    (∀ (ts : List Tweet) (fuel : Nat), ts.length + 2 ≤ fuel →
        organizeFuel fuel ts = organizeTweetsIntoThreads ts) ∧
    (∀ (ts : List Tweet), ∀ root ∈ organizeTweetsIntoThreads ts,
        ∀ d ∈ strictDesc root, d ≠ root) ∧
    organizeTweetsIntoThreads [cycA, cycB] = [] := by
  refine ⟨organizeFuel_stable, ?_, rfl⟩
  intro ts root _ d hd
  exact strictDesc_ne root d hd

/-- Witness for C5 at a singleton input and fuel 4. -/
theorem c5_termination_acyclic_witness :
    [tS3].length + 2 ≤ 4 ∧
    organizeFuel 4 [tS3] = organizeTweetsIntoThreads [tS3] :=
  ⟨by decide, c5_termination_acyclic.1 [tS3] 4 (by decide)⟩

/-! ### Stable sort lemmas (claim C8) -/

theorem insSorted_mem (k : α → Nat) (x : α) (l : List α) (a : α) :
    a ∈ insSorted k x l ↔ a = x ∨ a ∈ l := by
  induction l with
  | nil => simp [insSorted]
  | cons y ys ih =>
      rw [insSorted]
      by_cases h : k y ≤ k x
      · rw [if_pos h]
        simp only [List.mem_cons, ih]
        tauto
      · rw [if_neg h]
        simp only [List.mem_cons]

theorem insSorted_perm (k : α → Nat) (x : α) (l : List α) :
    (insSorted k x l).Perm (x :: l) := by
  induction l with
  | nil => simp [insSorted]
  | cons y ys ih =>
      rw [insSorted]
      by_cases h : k y ≤ k x
      · rw [if_pos h]
        exact (ih.cons y).trans (List.Perm.swap x y ys)
      · rw [if_neg h]

theorem stableSortBy_perm (k : α → Nat) (l : List α) :
    (stableSortBy k l).Perm l := by
  suffices h : ∀ acc : List α,
      (l.foldl (fun acc x => insSorted k x acc) acc).Perm (acc ++ l) by
    simpa [stableSortBy] using h []
  induction l with
  | nil => intro acc; simp
  | cons y ys ih =>
      intro acc
      simp only [List.foldl_cons]
      refine (ih (insSorted k y acc)).trans ?_
      refine ((insSorted_perm k y acc).append_right ys).trans ?_
      exact List.perm_middle.symm

theorem stableSortBy_mem (k : α → Nat) (l : List α) (a : α) :
    a ∈ stableSortBy k l ↔ a ∈ l :=
  (stableSortBy_perm k l).mem_iff

theorem insSorted_sorted (k : α → Nat) (x : α) (l : List α)
    (h : l.Pairwise (fun a b => k a ≤ k b)) :
    (insSorted k x l).Pairwise (fun a b => k a ≤ k b) := by
  induction l with
  | nil => simp [insSorted]
  | cons y ys ih =>
      rw [List.pairwise_cons] at h
      rw [insSorted]
      by_cases hy : k y ≤ k x
      · rw [if_pos hy, List.pairwise_cons]
        constructor
        · intro a ha
          rcases (insSorted_mem k x ys a).mp ha with rfl | ha
          · exact hy
          · exact h.1 a ha
        · exact ih h.2
      · rw [if_neg hy, List.pairwise_cons]
        refine ⟨?_, List.pairwise_cons.mpr h⟩
        intro a ha
        have hxy : k x ≤ k y := by omega
        rcases List.mem_cons.mp ha with rfl | ha
        · exact hxy
        · exact le_trans hxy (h.1 a ha)

theorem stableSortBy_sorted (k : α → Nat) (l : List α) :
    (stableSortBy k l).Pairwise (fun a b => k a ≤ k b) := by
  suffices h : ∀ acc : List α, acc.Pairwise (fun a b => k a ≤ k b) →
      (l.foldl (fun acc x => insSorted k x acc) acc).Pairwise
        (fun a b => k a ≤ k b) by
    exact h [] (by simp)
  induction l with
  | nil => intro acc hacc; simpa using hacc
  | cons y ys ih =>
      intro acc hacc
      simp only [List.foldl_cons]
      exact ih _ (insSorted_sorted k y acc hacc)

theorem insSorted_append_big (k : α → Nat) (x : α) (l : List α)
    (h : ∀ a ∈ l, k a ≤ k x) :
    insSorted k x l = l ++ [x] := by
  induction l with
  | nil => rfl
  | cons y ys ih =>
      rw [insSorted, if_pos (h y (by simp)), ih (fun a ha => h a (by simp [ha]))]
      rfl

theorem stableSortBy_fold_eq (k : α → Nat) :
    ∀ (l acc : List α), l.Pairwise (fun a b => k a ≤ k b) →
      acc.Pairwise (fun a b => k a ≤ k b) →
      (∀ a ∈ acc, ∀ b ∈ l, k a ≤ k b) →
      l.foldl (fun acc x => insSorted k x acc) acc = acc ++ l := by
  intro l
  induction l with
  | nil => intro acc _ _ _; simp
  | cons y ys ih =>
      intro acc hl hacc hab
      rw [List.pairwise_cons] at hl
      simp only [List.foldl_cons]
      have hins : insSorted k y acc = acc ++ [y] :=
        insSorted_append_big k y acc (fun a ha => hab a ha y (by simp))
      rw [hins]
      have h1 : (acc ++ [y]).Pairwise (fun a b => k a ≤ k b) := by
        refine List.pairwise_append.mpr ⟨hacc, by simp, ?_⟩
        intro a ha b hb
        have hby : b = y := by simpa using hb
        rw [hby]
        exact hab a ha y (by simp)
      have h2 : ∀ a ∈ acc ++ [y], ∀ b ∈ ys, k a ≤ k b := by
        intro a ha b hb
        rcases List.mem_append.mp ha with ha | ha
        · exact hab a ha b (by simp [hb])
        · have hay : a = y := by simpa using ha
          rw [hay]
          exact hl.1 b hb
      rw [ih (acc ++ [y]) hl.2 h1 h2]
      simp

theorem stableSortBy_eq_self (k : α → Nat) (l : List α)
    (h : l.Pairwise (fun a b => k a ≤ k b)) :
    stableSortBy k l = l := by
  unfold stableSortBy
  rw [stableSortBy_fold_eq k l [] h (by simp) (by simp)]
  simp

theorem insSorted_filter_key (k : α → Nat) (x : α) (v : Nat) :
    ∀ l : List α, l.Pairwise (fun a b => k a ≤ k b) →
      (insSorted k x l).filter (fun a => k a == v) =
        if k x = v then l.filter (fun a => k a == v) ++ [x]
        else l.filter (fun a => k a == v) := by
  intro l
  induction l with
  | nil =>
      intro _
      by_cases hx : k x = v
      · rw [if_pos hx]
        simp [insSorted, hx]
      · rw [if_neg hx]
        simp [insSorted, hx]
  | cons y ys ih =>
      intro hp
      rw [List.pairwise_cons] at hp
      rw [insSorted]
      by_cases hy : k y ≤ k x
      · rw [if_pos hy, List.filter_cons, ih hp.2, List.filter_cons]
        by_cases hxv : k x = v <;> by_cases hyv : (k y == v) = true <;>
          simp [hxv, hyv]
      · rw [if_neg hy, List.filter_cons]
        by_cases hxv : k x = v
        · have hpx : (k x == v) = true := by simpa using hxv
          rw [if_pos hpx, if_pos hxv]
          have hnil : (y :: ys).filter (fun a => k a == v) = [] := by
            rw [List.filter_eq_nil_iff]
            intro a ha
            have hka : k y ≤ k a := by
              rcases List.mem_cons.mp ha with rfl | ha
              · exact le_refl _
              · exact hp.1 a ha
            simp only [beq_iff_eq]
            omega
          rw [hnil]
          rfl
        · have hpx : ¬((k x == v) = true) := by simpa using hxv
          rw [if_neg hpx, if_neg hxv]

theorem stableSortBy_filter_key (k : α → Nat) (v : Nat) (l : List α) :
    (stableSortBy k l).filter (fun a => k a == v) =
      l.filter (fun a => k a == v) := by
  suffices h : ∀ (l acc : List α), acc.Pairwise (fun a b => k a ≤ k b) →
      (l.foldl (fun acc x => insSorted k x acc) acc).filter (fun a => k a == v) =
        acc.filter (fun a => k a == v) ++ l.filter (fun a => k a == v) by
    simpa [stableSortBy] using h l [] (by simp)
  intro l
  induction l with
  | nil => intro acc _; simp
  | cons y ys ih =>
      intro acc hacc
      simp only [List.foldl_cons]
      rw [ih (insSorted k y acc) (insSorted_sorted k y acc hacc),
        insSorted_filter_key k y v acc hacc, List.filter_cons]
      by_cases hyv : k y = v
      · have hb : (k y == v) = true := by simpa using hyv
        rw [if_pos hyv, if_pos hb]
        simp
      · have hb : ¬((k y == v) = true) := by simpa using hyv
        rw [if_neg hyv, if_neg hb]

/-! ### Conversation grouping lemmas (claim C8) -/

theorem groupByConv_fold_snd (ts : List Tweet) :
    ∀ (gs : List (String × List Tweet)) (os : List Tweet),
      (ts.foldl
        (fun acc t =>
          if truthyS t.conversationId then
            (addToGroup acc.1 (t.conversationId.getD "") t, acc.2)
          else (acc.1, acc.2 ++ [t])) (gs, os)).2 =
        os ++ ts.filter (fun t => !(truthyS t.conversationId)) := by
  induction ts with
  | nil => intro gs os; simp
  | cons u us ih =>
      intro gs os
      simp only [List.foldl_cons, List.filter_cons]
      by_cases hu : truthyS u.conversationId = true
      · simp only [hu, if_true, Bool.not_true, Bool.false_eq_true, if_false]
        exact ih _ os
      · have hu' : truthyS u.conversationId = false := by
          cases h : truthyS u.conversationId
          · rfl
          · exact absurd h hu
        simp only [hu', Bool.false_eq_true, if_false, Bool.not_false, if_true]
        rw [ih gs (os ++ [u])]
        simp

/-- The orphan component of the grouping is exactly the sub-list of
records without a truthy conversation id, in input order. -/
theorem groupByConv_snd (ts : List Tweet) :
    (groupByConv ts).2 = ts.filter (fun t => !(truthyS t.conversationId)) := by
  unfold groupByConv
  simpa using groupByConv_fold_snd ts [] []

theorem addToGroup_members (gs : List (String × List Tweet)) (key : String)
    (x : Tweet) (P : String → Tweet → Prop)
    (hgs : ∀ p ∈ gs, ∀ t ∈ p.2, P p.1 t) (hx : P key x) :
    ∀ p ∈ addToGroup gs key x, ∀ t ∈ p.2, P p.1 t := by
  unfold addToGroup
  by_cases hany : gs.any (fun p => p.1 == key) = true
  · rw [if_pos hany]
    intro p hp t ht
    rcases List.mem_map.mp hp with ⟨q, hq, he⟩
    by_cases hqk : (q.1 == key) = true
    · rw [if_pos hqk] at he
      have hqe : q.1 = key := by simpa using hqk
      rw [← he]
      rw [← he] at ht
      rcases List.mem_append.mp ht with ht | ht
      · exact hgs q hq t ht
      · have : t = x := by simpa using ht
        rw [this, hqe]
        exact hx
    · rw [if_neg hqk] at he
      rw [← he] at ht ⊢
      exact hgs q hq t ht
  · rw [if_neg hany]
    intro p hp t ht
    rcases List.mem_append.mp hp with hp | hp
    · exact hgs p hp t ht
    · have hpe : p = (key, [x]) := by simpa using hp
      rw [hpe] at ht ⊢
      have : t = x := by simpa using ht
      rw [this]
      exact hx

theorem groupByConv_fold_members (P : String → Tweet → Prop) (ts : List Tweet)
    (hts : ∀ t ∈ ts, truthyS t.conversationId = true →
      P (t.conversationId.getD "") t) :
    ∀ gs os, (∀ p ∈ gs, ∀ t ∈ p.2, P p.1 t) →
      ∀ p ∈ (ts.foldl
        (fun acc t =>
          if truthyS t.conversationId then
            (addToGroup acc.1 (t.conversationId.getD "") t, acc.2)
          else (acc.1, acc.2 ++ [t])) (gs, os)).1, ∀ t ∈ p.2, P p.1 t := by
  induction ts with
  | nil => intro gs os h; exact h
  | cons u us ih =>
      intro gs os h
      simp only [List.foldl_cons]
      by_cases hu : truthyS u.conversationId = true
      · simp only [hu, if_true]
        exact ih (fun t ht => hts t (by simp [ht])) _ os
          (addToGroup_members gs _ u P h (hts u (by simp) hu))
      · have hu' : truthyS u.conversationId = false := by
          cases hc : truthyS u.conversationId
          · rfl
          · exact absurd hc hu
        simp only [hu', Bool.false_eq_true, if_false]
        exact ih (fun t ht => hts t (by simp [ht])) gs (os ++ [u]) h

/-- Every member of a conversation group carries exactly the key of
its group as conversation id, and that key is nonempty. -/
theorem groupByConv_members (ts : List Tweet) :
    ∀ p ∈ (groupByConv ts).1, ∀ t ∈ p.2,
      t.conversationId = some p.1 ∧ p.1 ≠ "" := by
  unfold groupByConv
  refine groupByConv_fold_members
    (fun c t => t.conversationId = some c ∧ c ≠ "") ts ?_ [] []
    (fun p hp => by cases hp)
  intro t _ htr
  cases hc : t.conversationId with
  | none => rw [hc] at htr; simp [truthyS] at htr
  | some s =>
      rw [hc] at htr
      have hs : s ≠ "" := by simpa [truthyS] using htr
      exact ⟨rfl, hs⟩

theorem addToGroup_sublist (gs : List (String × List Tweet)) (key : String)
    (x : Tweet) (done : List Tweet)
    (h : ∀ p ∈ gs, p.2.Sublist done) :
    ∀ p ∈ addToGroup gs key x, p.2.Sublist (done ++ [x]) := by
  unfold addToGroup
  by_cases hany : gs.any (fun p => p.1 == key) = true
  · rw [if_pos hany]
    intro p hp
    rcases List.mem_map.mp hp with ⟨q, hq, he⟩
    by_cases hqk : (q.1 == key) = true
    · rw [if_pos hqk] at he
      rw [← he]
      exact (h q hq).append (List.Sublist.refl [x])
    · rw [if_neg hqk] at he
      rw [← he]
      exact (h q hq).trans (List.sublist_append_left done [x])
  · rw [if_neg hany]
    intro p hp
    rcases List.mem_append.mp hp with hp | hp
    · exact (h p hp).trans (List.sublist_append_left done [x])
    · have hpe : p = (key, [x]) := by simpa using hp
      rw [hpe]
      simp

theorem groupByConv_fold_sublist (ts : List Tweet) :
    ∀ gs os (done : List Tweet), (∀ p ∈ gs, p.2.Sublist done) →
      ∀ p ∈ (ts.foldl
        (fun acc t =>
          if truthyS t.conversationId then
            (addToGroup acc.1 (t.conversationId.getD "") t, acc.2)
          else (acc.1, acc.2 ++ [t])) (gs, os)).1,
        p.2.Sublist (done ++ ts) := by
  induction ts with
  | nil => intro gs os done h p hp; simpa using h p hp
  | cons u us ih =>
      intro gs os done h
      simp only [List.foldl_cons]
      by_cases hu : truthyS u.conversationId = true
      · simp only [hu, if_true]
        intro p hp
        have := ih _ os (done ++ [u]) (addToGroup_sublist gs _ u done h) p hp
        simpa [List.append_assoc] using this
      · have hu' : truthyS u.conversationId = false := by
          cases hc : truthyS u.conversationId
          · rfl
          · exact absurd hc hu
        simp only [hu', Bool.false_eq_true, if_false]
        intro p hp
        have := ih gs (os ++ [u]) done h p hp
        refine this.trans ?_
        refine List.Sublist.append_left ?_ done
        exact List.sublist_cons_self u us

/-- Every conversation group is a subsequence of the input, so the
group preserves the merge order of its members. -/
theorem groupByConv_sublist (ts : List Tweet) :
    ∀ p ∈ (groupByConv ts).1, p.2.Sublist ts := by
  intro p hp
  unfold groupByConv at hp
  have := groupByConv_fold_sublist ts [] [] [] (fun q hq => by cases hq) p hp
  simpa using this

theorem groupByConv_fold_single (c : String) (hc : c ≠ "") (l : List Tweet)
    (h : ∀ t ∈ l, t.conversationId = some c) :
    ∀ acc : List Tweet,
      l.foldl
        (fun acc t =>
          if truthyS t.conversationId then
            (addToGroup acc.1 (t.conversationId.getD "") t, acc.2)
          else (acc.1, acc.2 ++ [t])) ([(c, acc)], ([] : List Tweet)) =
        ([(c, acc ++ l)], []) := by
  induction l with
  | nil => intro acc; simp
  | cons u us ih =>
      intro acc
      simp only [List.foldl_cons]
      have hcu : u.conversationId = some c := h u (by simp)
      have htr : truthyS u.conversationId = true := by
        rw [hcu]; simp [truthyS, hc]
      simp only [htr, if_true]
      have hadd : addToGroup [(c, acc)] (u.conversationId.getD "") u
          = [(c, acc ++ [u])] := by
        rw [hcu]
        unfold addToGroup
        simp
      rw [hadd, ih (fun t ht => h t (by simp [ht])) (acc ++ [u])]
      simp

/-- A nonempty batch all of whose records carry the same nonempty
conversation id groups into that single conversation. -/
theorem groupByConv_single (c : String) (hc : c ≠ "") (ts : List Tweet)
    (h : ∀ t ∈ ts, t.conversationId = some c) (hne : ts ≠ []) :
    groupByConv ts = ([(c, ts)], []) := by
  cases ts with
  | nil => exact absurd rfl hne
  | cons u us =>
      unfold groupByConv
      simp only [List.foldl_cons]
      have hcu : u.conversationId = some c := h u (by simp)
      have htr : truthyS u.conversationId = true := by
        rw [hcu]; simp [truthyS, hc]
      simp only [htr, if_true]
      have hadd : addToGroup [] (u.conversationId.getD "") u = [(c, [u])] := by
        rw [hcu]
        unfold addToGroup
        simp
      rw [hadd, groupByConv_fold_single c hc us (fun t ht => h t (by simp [ht])) [u]]
      simp

/-- On a batch forming a single conversation, the thread builder is
exactly the per-conversation processing of that batch. -/
theorem organize_single_conv (c : String) (hc : c ≠ "") (ts : List Tweet)
    (h : ∀ t ∈ ts, t.conversationId = some c) :
    organizeTweetsIntoThreads ts =
      processConversation (buildTweetMap ts) (ts.length + 2) ts := by
  cases ts with
  | nil => rfl
  | cons u us =>
      unfold organizeTweetsIntoThreads organizeFuel
      show (groupByConv (u :: us)).2.foldl
          (fun acc t => acc ++ processOrphan (u :: us) (buildTweetMap (u :: us)) t)
          ((groupByConv (u :: us)).1.foldl
            (fun acc g =>
              acc ++ processConversation (buildTweetMap (u :: us))
                ((u :: us).length + 2) g.2) [])
        = processConversation (buildTweetMap (u :: us)) ((u :: us).length + 2)
            (u :: us)
      rw [groupByConv_single c hc (u :: us) h (by simp)]
      simp

/-! ### Root and child order characterization (claim C8) -/

/-- Attachment never changes the id or the timestamp of the node it
decorates. -/
theorem attachFuel_pair (conv : List Tweet) (tmap : List (String × Tweet))
    (fuel : Nat) (pr : List JStr) (node : Tweet) :
    (attachFuel conv tmap fuel pr node).1.id = node.id ∧
    (attachFuel conv tmap fuel pr node).1.createdAt = node.createdAt := by
  rcases attachFuel_shape conv tmap fuel pr node with he | ⟨ch, he⟩
  · rw [he]
    exact ⟨rfl, rfl⟩
  · rw [he]
    exact ⟨setChildren_id node _, setChildren_createdAt node _⟩

/-- The copy-and-attach fold emits one node per selected record, in
order, with the record id and timestamp. -/
theorem attach_fold_pairs (conv : List Tweet) (tmap : List (String × Tweet))
    (fuel : Nat)
    (hget : ∀ r ∈ conv, getBangT tmap r.id = r.setChildren (some [])) :
    ∀ ks : List Tweet, (∀ r ∈ ks, r ∈ conv) →
      ∀ acc : List Tweet × List JStr,
        ((ks.foldl
          (fun acc child =>
            let copy := (getBangT tmap child.id).setChildren (some [])
            let step := attachFuel conv tmap fuel acc.2 copy
            (acc.1 ++ [step.1], step.2)) acc).1).map (fun x => (x.id, timeOf x)) =
          acc.1.map (fun x => (x.id, timeOf x)) ++
            ks.map (fun t => (t.id, timeOf t)) := by
  intro ks
  induction ks with
  | nil => intro _ acc; simp
  | cons r rs ih =>
      intro hsub acc
      simp only [List.foldl_cons]
      rw [ih (fun x hx => hsub x (by simp [hx])) _]
      have hr := hget r (hsub r (by simp))
      have hid1 : (attachFuel conv tmap fuel acc.2
          ((getBangT tmap r.id).setChildren (some []))).1.id = r.id := by
        rw [(attachFuel_pair conv tmap fuel acc.2 _).1, setChildren_id, hr,
          setChildren_id]
      have htm1 : (attachFuel conv tmap fuel acc.2
          ((getBangT tmap r.id).setChildren (some []))).1.createdAt
            = r.createdAt := by
        rw [(attachFuel_pair conv tmap fuel acc.2 _).2, setChildren_createdAt, hr,
          setChildren_createdAt]
      simp only [List.map_append, List.map_cons, List.map_nil, timeOf]
      rw [hid1, htm1]
      simp

/-- The per-conversation output lists exactly the local roots, in
group order, carrying their own ids and timestamps. -/
theorem processConversation_pairs (ts : List Tweet) (fuel : Nat)
    (hid : ∀ t ∈ ts, truthyS t.id = true)
    (hnd : (ts.map Tweet.id).Nodup) :
    (processConversation (buildTweetMap ts) fuel ts).map
        (fun x => (x.id, timeOf x)) =
      (ts.filter (isRootIn (ts.map Tweet.id))).map (fun t => (t.id, timeOf t)) := by
  unfold processConversation
  have hget : ∀ r ∈ ts, getBangT (buildTweetMap ts) r.id = r.setChildren (some []) :=
    fun r hr => getBangT_eq ts hid hnd r hr
  have := attach_fold_pairs ts (buildTweetMap ts) fuel hget
    (ts.filter (isRootIn (ts.map Tweet.id)))
    (fun r hr => List.mem_of_mem_filter hr) ([], [])
  simpa using this

/-- Filtering a tweet list by timestamp and projecting ids factors
through the (id, time) pair list. -/
theorem pairs_filter_time (l : List Tweet) (v : Nat) :
    (l.filter (fun x => timeOf x == v)).map Tweet.id =
      ((l.map (fun x => (x.id, timeOf x))).filter
        (fun q => q.2 == v)).map Prod.fst := by
  induction l with
  | nil => rfl
  | cons t ts ih =>
      simp only [List.map_cons, List.filter_cons]
      by_cases h : (timeOf t == v) = true
      · rw [if_pos h, if_pos h]
        simp only [List.map_cons]
        rw [ih]
      · rw [if_neg h, if_neg h]
        exact ih

/-- Resetting children affects neither timestamps nor ids, so it
commutes with time filtering and id projection. -/
theorem map_set_filter_time (l : List Tweet) (v : Nat) :
    ((l.map (fun t => t.setChildren (some []))).filter
        (fun x => timeOf x == v)).map Tweet.id =
      (l.filter (fun x => timeOf x == v)).map Tweet.id := by
  induction l with
  | nil => rfl
  | cons t ts ih =>
      simp only [List.map_cons, List.filter_cons, timeOf, setChildren_createdAt]
      simp only [timeOf] at ih
      by_cases h : (dateTime t.createdAt == v) = true
      · rw [if_pos h, if_pos h]
        simp only [List.map_cons, setChildren_id]
        rw [ih]
      · rw [if_neg h, if_neg h]
        exact ih

/-- In a batch with truthy pairwise-distinct ids, every node of every
tree the recursive attachment builds carries as children exactly the
records whose reply-target id is the node id (in batch order, with
their own ids and timestamps), unless the defensive guard left the
children empty. -/
theorem attachFuel_children (ts : List Tweet)
    (hid : ∀ t ∈ ts, truthyS t.id = true)
    (hnd : (ts.map Tweet.id).Nodup) :
    ∀ (fuel : Nat) (pr : List JStr) (node : Tweet), node.children = some [] →
      ∀ d ∈ nodesT (attachFuel ts (buildTweetMap ts) fuel pr node).1,
        (d.children.getD []).map (fun y => (y.id, timeOf y)) =
            (ts.filter (fun t => t.inReplyToId == d.id && t.id != d.id)).map
              (fun t => (t.id, timeOf t)) ∨
        d.children.getD [] = [] := by
  have hget : ∀ r ∈ ts, getBangT (buildTweetMap ts) r.id = r.setChildren (some []) :=
    fun r hr => getBangT_eq ts hid hnd r hr
  intro fuel
  induction fuel with
  | zero =>
      intro pr node hch d hd
      simp only [attachFuel] at hd
      rw [nodesT_of_children_nil node hch] at hd
      simp at hd
      subst hd
      right
      simp [hch]
  | succ n ih =>
      intro pr node hch d hd
      rw [attachFuel] at hd
      by_cases hg : pr.contains node.id
      · simp only [hg, if_true] at hd
        rw [nodesT_of_children_nil node hch] at hd
        simp at hd
        subst hd
        right
        simp [hch]
      · simp only [hg, Bool.false_eq_true, if_false] at hd
        by_cases hke : (ts.filter
            (fun t => t.inReplyToId == node.id && t.id != node.id)).isEmpty
        · simp only [hke, if_true] at hd
          rw [nodesT_of_children_nil node hch] at hd
          simp at hd
          subst hd
          right
          simp [hch]
        · simp only [hke, Bool.false_eq_true, if_false] at hd
          rw [nodesT_def, setChildren_children] at hd
          rcases List.mem_cons.mp hd with h1 | h2
          · subst h1
            left
            simp only [setChildren_children, setChildren_id, Option.getD_some]
            simpa using attach_fold_pairs ts (buildTweetMap ts) n hget
              (ts.filter (fun t => t.inReplyToId == node.id && t.id != node.id))
              (fun r hr => List.mem_of_mem_filter hr) ([], node.id :: pr)
          · have hfold : ∀ (ks : List Tweet) (acc : List Tweet × List JStr),
                (∀ x ∈ nodesList acc.1,
                  (x.children.getD []).map (fun y => (y.id, timeOf y)) =
                      (ts.filter
                        (fun t => t.inReplyToId == x.id && t.id != x.id)).map
                        (fun t => (t.id, timeOf t)) ∨
                    x.children.getD [] = []) →
                ∀ x ∈ nodesList (ks.foldl
                  (fun acc child =>
                    let copy := (getBangT (buildTweetMap ts) child.id).setChildren
                      (some [])
                    let step := attachFuel ts (buildTweetMap ts) n acc.2 copy
                    (acc.1 ++ [step.1], step.2)) acc).1,
                  (x.children.getD []).map (fun y => (y.id, timeOf y)) =
                      (ts.filter
                        (fun t => t.inReplyToId == x.id && t.id != x.id)).map
                        (fun t => (t.id, timeOf t)) ∨
                    x.children.getD [] = [] := by
              intro ks
              induction ks with
              | nil => intro acc ha x hx; exact ha x hx
              | cons kd ks ihk =>
                  intro acc ha x hx
                  simp only [List.foldl_cons] at hx
                  refine ihk _ ?_ x hx
                  intro y hy
                  rw [nodesList_append] at hy
                  rcases List.mem_append.mp hy with hy1 | hy2
                  · exact ha y hy1
                  · exact ih acc.2
                      ((getBangT (buildTweetMap ts) kd.id).setChildren (some []))
                      (by simp) y (by simpa [nodesList] using hy2)
            exact hfold _ ([], node.id :: pr) (fun x hx => by cases hx) d h2

/-- The child characterization extended to every node of the
per-conversation output. -/
theorem processConversation_children (ts : List Tweet) (fuel : Nat)
    (hid : ∀ t ∈ ts, truthyS t.id = true)
    (hnd : (ts.map Tweet.id).Nodup) :
    ∀ x ∈ processConversation (buildTweetMap ts) fuel ts, ∀ d ∈ nodesT x,
      (d.children.getD []).map (fun y => (y.id, timeOf y)) =
          (ts.filter (fun t => t.inReplyToId == d.id && t.id != d.id)).map
            (fun t => (t.id, timeOf t)) ∨
        d.children.getD [] = [] := by
  unfold processConversation
  have hfold : ∀ (rs : List Tweet) (acc : List Tweet × List JStr),
      (∀ x ∈ acc.1, ∀ d ∈ nodesT x,
        (d.children.getD []).map (fun y => (y.id, timeOf y)) =
            (ts.filter (fun t => t.inReplyToId == d.id && t.id != d.id)).map
              (fun t => (t.id, timeOf t)) ∨
          d.children.getD [] = []) →
      ∀ x ∈ (rs.foldl (fun acc root =>
          let rootCopy := (getBangT (buildTweetMap ts) root.id).setChildren (some [])
          let step := attachFuel ts (buildTweetMap ts) fuel acc.2 rootCopy
          (acc.1 ++ [step.1], step.2)) acc).1, ∀ d ∈ nodesT x,
        (d.children.getD []).map (fun y => (y.id, timeOf y)) =
            (ts.filter (fun t => t.inReplyToId == d.id && t.id != d.id)).map
              (fun t => (t.id, timeOf t)) ∨
          d.children.getD [] = [] := by
    intro rs
    induction rs with
    | nil => intro acc ha; exact ha
    | cons r rs ihr =>
        intro acc ha
        simp only [List.foldl_cons]
        refine ihr _ ?_
        intro x hx d hd
        rcases List.mem_append.mp hx with hx1 | hx2
        · exact ha x hx1 d hd
        · simp at hx2
          subst hx2
          exact attachFuel_children ts hid hnd fuel acc.2 _ (by simp) d hd
  exact hfold _ ([], []) (fun x hx => by cases hx)

theorem filter_swap (p q : α → Bool) (l : List α) :
    (l.filter p).filter q = (l.filter q).filter p := by
  induction l with
  | nil => rfl
  | cons t ts ih =>
      simp only [List.filter_cons]
      by_cases hp : p t = true <;> by_cases hq : q t = true <;>
        simp [List.filter_cons, hp, hq, ih]

/-- C8: under truthy pairwise-distinct ids, the composed render order
is total and stable: the pipeline lists the conversation groups first
and the standalone forest after them; groups are sorted ascending by
the earliest member timestamp, with equal-key groups kept in merge
order; within each group the root trees are sorted ascending by their
own timestamp, and the roots with a given timestamp are exactly the
local roots of the group carrying that timestamp, in merge order; the
children of every node are sorted ascending by timestamp and are
exactly the reply records of the node in stably-sorted group order
(unless the cycle guard left them empty); the standalone roots are
sorted ascending by timestamp, with ties kept in merge order over the
records without a conversation id. -/
theorem c8_composed_order (merged : List Tweet)
    (hid : ∀ t ∈ merged, truthyS t.id = true)
    (hnd : (merged.map Tweet.id).Nodup) :
    (composePipeline merged).1 =
        (sortedConversations merged).map (fun p => (p.1, conversationForest p.2)) ∧
    (composePipeline merged).2 = standaloneForest merged ∧
    (sortedConversations merged).Pairwise
      (fun p q => oldestTime p.2 ≤ oldestTime q.2) ∧
    (∀ v : Nat, (sortedConversations merged).filter
        (fun p => oldestTime p.2 == v) =
      (groupByConv merged).1.filter (fun p => oldestTime p.2 == v)) ∧
    (∀ p ∈ sortedConversations merged,
      ((conversationForest p.2).map timeOf).Pairwise (fun a b => a ≤ b)) ∧
    (∀ p ∈ sortedConversations merged, ∀ v : Nat,
      ((conversationForest p.2).filter (fun x => timeOf x == v)).map Tweet.id =
        ((p.2.filter (fun t => timeOf t == v)).filter
          (isRootIn ((stableSortBy timeOf p.2).map Tweet.id))).map Tweet.id) ∧
    (∀ p ∈ sortedConversations merged, ∀ root ∈ conversationForest p.2,
      ∀ d ∈ nodesT root,
        ((d.children.getD []).map timeOf).Pairwise (fun a b => a ≤ b) ∧
        ((d.children.getD []).map (fun y => (y.id, timeOf y)) =
            ((stableSortBy timeOf p.2).filter
              (fun t => t.inReplyToId == d.id && t.id != d.id)).map
              (fun t => (t.id, timeOf t)) ∨
          d.children.getD [] = [])) ∧
    ((standaloneForest merged).map timeOf).Pairwise (fun a b => a ≤ b) ∧
    (∀ v : Nat,
      ((standaloneForest merged).filter (fun x => timeOf x == v)).map Tweet.id =
        ((merged.filter (fun t => !(truthyS t.conversationId))).filter
          (fun x => timeOf x == v)).map Tweet.id) := by
  have hgrp : ∀ p ∈ sortedConversations merged, p ∈ (groupByConv merged).1 := by
    intro p hp
    have hp2 : p ∈ stableSortBy (fun q => oldestTime q.2) (groupByConv merged).1 := hp
    exact (stableSortBy_mem (fun q => oldestTime q.2) (groupByConv merged).1 p).mp hp2
  have hsg : ∀ p ∈ sortedConversations merged,
      (∀ t ∈ stableSortBy timeOf p.2, truthyS t.id = true) ∧
      (((stableSortBy timeOf p.2).map Tweet.id).Nodup) := by
    intro p hp
    have hsub := groupByConv_sublist merged p (hgrp p hp)
    constructor
    · intro t ht
      exact hid t (hsub.subset ((stableSortBy_mem timeOf p.2 t).mp ht))
    · exact ((stableSortBy_perm timeOf p.2).map Tweet.id).nodup_iff.mpr
        (hnd.sublist (hsub.map Tweet.id))
  have horg : ∀ p ∈ sortedConversations merged,
      organizeTweetsIntoThreads (stableSortBy timeOf p.2) =
        processConversation (buildTweetMap (stableSortBy timeOf p.2))
          ((stableSortBy timeOf p.2).length + 2) (stableSortBy timeOf p.2) := by
    intro p hp
    have hp1 := hgrp p hp
    cases hpe : p.2 with
    | nil => rfl
    | cons t rest =>
        have hmem : t ∈ p.2 := by rw [hpe]; simp
        have hkey : p.1 ≠ "" := (groupByConv_members merged p hp1 t hmem).2
        refine organize_single_conv p.1 hkey _ ?_
        intro u hu
        have hu2 : u ∈ p.2 := by
          rw [hpe]
          exact (stableSortBy_mem timeOf (t :: rest) u).mp hu
        exact (groupByConv_members merged p hp1 u hu2).1
  refine ⟨rfl, rfl, ?_, ?_, ?_, ?_, ?_, ?_, ?_⟩
  · exact stableSortBy_sorted (fun q => oldestTime q.2) (groupByConv merged).1
  · intro v
    exact stableSortBy_filter_key (fun q => oldestTime q.2) v (groupByConv merged).1
  · intro p _
    rw [List.pairwise_map]
    exact stableSortBy_sorted timeOf _
  · intro p hp v
    have hs := hsg p hp
    simp only [conversationForest]
    rw [horg p hp]
    rw [stableSortBy_filter_key timeOf v]
    rw [pairs_filter_time]
    rw [processConversation_pairs _ _ hs.1 hs.2]
    rw [← pairs_filter_time]
    rw [filter_swap]
    rw [stableSortBy_filter_key timeOf v p.2]
  · intro p hp root hroot d hd
    have hs := hsg p hp
    have hroot2 : root ∈ organizeTweetsIntoThreads (stableSortBy timeOf p.2) := by
      have hm : root ∈ stableSortBy timeOf
          (organizeTweetsIntoThreads (stableSortBy timeOf p.2)) := hroot
      exact (stableSortBy_mem timeOf _ root).mp hm
    rw [horg p hp] at hroot2
    have hchar := processConversation_children (stableSortBy timeOf p.2)
      ((stableSortBy timeOf p.2).length + 2) hs.1 hs.2 root hroot2 d hd
    refine ⟨?_, hchar⟩
    rcases hchar with hl | hr
    · have htime : (d.children.getD []).map timeOf =
          ((stableSortBy timeOf p.2).filter
            (fun t => t.inReplyToId == d.id && t.id != d.id)).map timeOf := by
        have hsnd := congrArg (List.map Prod.snd) hl
        simpa [List.map_map, Function.comp] using hsnd
      rw [htime, List.pairwise_map]
      exact (stableSortBy_sorted timeOf p.2).sublist (List.filter_sublist _)
    · rw [hr]
      simp
  · rw [List.pairwise_map]
    exact stableSortBy_sorted timeOf _
  · intro v
    simp only [standaloneForest]
    rw [stableSortBy_filter_key timeOf v]
    have horph : (groupByConv merged).2 =
        merged.filter (fun t => !(truthyS t.conversationId)) := groupByConv_snd merged
    have hconvso : ∀ t ∈ stableSortBy timeOf (groupByConv merged).2,
        truthyS t.conversationId = false := by
      intro t ht
      have hm := (stableSortBy_mem timeOf _ t).mp ht
      rw [horph] at hm
      have hf := List.of_mem_filter hm
      simpa using hf
    have hidso : ∀ t ∈ stableSortBy timeOf (groupByConv merged).2,
        truthyS t.id = true := by
      intro t ht
      have hm := (stableSortBy_mem timeOf _ t).mp ht
      rw [horph] at hm
      exact hid t (List.mem_of_mem_filter hm)
    have hndso : ((stableSortBy timeOf (groupByConv merged).2).map Tweet.id).Nodup := by
      refine ((stableSortBy_perm timeOf _).map Tweet.id).nodup_iff.mpr ?_
      rw [horph]
      exact hnd.sublist ((List.filter_sublist _).map Tweet.id)
    rw [organize_standalone _ hconvso hidso hndso]
    rw [map_set_filter_time]
    rw [stableSortBy_filter_key timeOf v]
    rw [horph]

/-- Witness for C8 at a concrete merged batch: the cyclic
conversation pair followed by two standalone records, with truthy
pairwise-distinct ids. -/
theorem c8_composed_order_witness :
    ((∀ t ∈ [cycA, cycB, tS3, tR3], truthyS t.id = true) ∧
      (([cycA, cycB, tS3, tR3].map Tweet.id).Nodup)) ∧
    ((composePipeline [cycA, cycB, tS3, tR3]).1 =
        (sortedConversations [cycA, cycB, tS3, tR3]).map
          (fun p => (p.1, conversationForest p.2)) ∧
    (composePipeline [cycA, cycB, tS3, tR3]).2 =
        standaloneForest [cycA, cycB, tS3, tR3] ∧
    (sortedConversations [cycA, cycB, tS3, tR3]).Pairwise
      (fun p q => oldestTime p.2 ≤ oldestTime q.2) ∧
    (∀ v : Nat, (sortedConversations [cycA, cycB, tS3, tR3]).filter
        (fun p => oldestTime p.2 == v) =
      (groupByConv [cycA, cycB, tS3, tR3]).1.filter
        (fun p => oldestTime p.2 == v)) ∧
    (∀ p ∈ sortedConversations [cycA, cycB, tS3, tR3],
      ((conversationForest p.2).map timeOf).Pairwise (fun a b => a ≤ b)) ∧
    (∀ p ∈ sortedConversations [cycA, cycB, tS3, tR3], ∀ v : Nat,
      ((conversationForest p.2).filter (fun x => timeOf x == v)).map Tweet.id =
        ((p.2.filter (fun t => timeOf t == v)).filter
          (isRootIn ((stableSortBy timeOf p.2).map Tweet.id))).map Tweet.id) ∧
    (∀ p ∈ sortedConversations [cycA, cycB, tS3, tR3],
      ∀ root ∈ conversationForest p.2, ∀ d ∈ nodesT root,
        ((d.children.getD []).map timeOf).Pairwise (fun a b => a ≤ b) ∧
        ((d.children.getD []).map (fun y => (y.id, timeOf y)) =
            ((stableSortBy timeOf p.2).filter
              (fun t => t.inReplyToId == d.id && t.id != d.id)).map
              (fun t => (t.id, timeOf t)) ∨
          d.children.getD [] = [])) ∧
    ((standaloneForest [cycA, cycB, tS3, tR3]).map timeOf).Pairwise
      (fun a b => a ≤ b) ∧
    (∀ v : Nat,
      ((standaloneForest [cycA, cycB, tS3, tR3]).filter
          (fun x => timeOf x == v)).map Tweet.id =
        (([cycA, cycB, tS3, tR3].filter
            (fun t => !(truthyS t.conversationId))).filter
          (fun x => timeOf x == v)).map Tweet.id)) :=
  ⟨⟨by decide, by decide⟩,
   c8_composed_order [cycA, cycB, tS3, tR3] (by decide) (by decide)⟩

end TwitterThreads
